import Mathlib

/-!
# A verification development for the boxtree tree-build kernels

This file gives a shallow embedding, in Lean 4, of the data-parallel kernels of
`boxtree/tree_build_kernels.py` (the level-loop scans, the split-and-sort
realization pass, the empty-box pruner and the satellite source-counting
kernel), together with the `reorder_sources`/`reorder_potentials` pair of
`boxtree/pyfmmlib_integration.py`, and proves or refutes the specified
properties of those kernels.

Modelling conventions:
* machine integers are modelled as `Nat`/`Int`; `int32` saturation and
  wrap-around are explicit (`my_add_sat`, `wrap32`) where the kernel text has
  them;
* a (segmented) parallel prefix scan is modelled by its sequential semantics:
  the inclusive running combine of the per-element inputs, restarting at
  segment boundaries (matching pyopencl's `GenericScanKernel`, whose
  `item` is the inclusive scan value and `prev_item` the exclusive one);
* `coord_t` floating-point coordinates are modelled as exact rationals `ℚ`;
  the C cast `(unsigned)(...)` of a non-negative value is modelled by `⌊·⌋`;
* the mako template parameters `dimensions`, `srcntgts_have_extent` and
  `adaptive` become ordinary parameters (`d : ℕ`, `ext adaptive : Bool`); the
  morton bin count record always carries the `nonchild_srcntgts` field, which
  is identically zero whenever extents are disabled (without extents the
  generated struct simply omits the field).
-/

namespace Boxtree

/-! ## int32 arithmetic helpers -/

/-- `INT_MAX` for the 32-bit `refine_weight_t`. -/
def INT_MAX : Int := 2 ^ 31 - 1

/-- `INT_MIN` for the 32-bit `refine_weight_t`. -/
def INT_MIN : Int := -(2 ^ 31)

/-- Conversion of a (widened) value back to a 32-bit two's-complement int. -/
def wrap32 (x : Int) : Int := (x + 2 ^ 31) % 2 ^ 32 - 2 ^ 31

/-- `my_add_sat` from `SCAN_PREAMBLE_TPL`: the sum is formed in 64-bit
(`long`), clamped at `INT_MAX` from above only, and returned as an `int`. -/
def my_add_sat (a b : Int) : Int :=
  let result := a + b
  if result > INT_MAX then INT_MAX else wrap32 result

/-- The OpenCL builtin `add_sat` for `int` (used by
`count_new_boxes_needed`): saturation at both ends of the `int` range. -/
def add_sat (a b : Int) : Int := max INT_MIN (min INT_MAX (a + b))

theorem wrap32_eq_self {x : Int} (h0 : INT_MIN ≤ x) (h1 : x ≤ INT_MAX) :
    wrap32 x = x := by
  unfold wrap32 INT_MIN INT_MAX at *
  omega

/-! ## The morton bin count record

`make_morton_bin_count_type`: per box and level, a cumulative particle count
(`pcnt`, of type `particle_id_t`) and refine-weight total (`pwt`, of type
`refine_weight_t = int32`) for each of the `2^d` child octants, preceded —
when srcntgts have extent — by the count `nonchild_srcntgts` of particles
that stay in the box. -/

structure MortonCounts (d : Nat) where
  nonchild_srcntgts : Nat
  pcnt : Fin (2 ^ d) → Nat
  pwt : Fin (2 ^ d) → Int

theorem MortonCounts.ext_iff' {d : Nat} {a b : MortonCounts d} :
    a = b ↔ a.nonchild_srcntgts = b.nonchild_srcntgts ∧
      (∀ k, a.pcnt k = b.pcnt k) ∧ (∀ k, a.pwt k = b.pwt k) := by
  constructor
  · rintro rfl; exact ⟨rfl, fun _ => rfl, fun _ => rfl⟩
  · rcases a with ⟨an, ap, aw⟩
    rcases b with ⟨bn, bp, bw⟩
    rintro ⟨h1, h2, h3⟩
    simp only [MortonCounts.mk.injEq]
    exact ⟨h1, funext h2, funext h3⟩

instance {d : Nat} : DecidableEq (MortonCounts d) := fun a b =>
  decidable_of_iff _ MortonCounts.ext_iff'.symm

/-- `scan_t_neutral` of `SCAN_PREAMBLE_TPL`. -/
def scan_t_neutral (d : Nat) : MortonCounts d :=
  { nonchild_srcntgts := 0, pcnt := fun _ => 0, pwt := fun _ => 0 }

/-- `scan_t_add` of `SCAN_PREAMBLE_TPL`: across a segment boundary the right
operand passes through; otherwise counts add (machine `+` on
`particle_id_t`) and weights combine by `my_add_sat`. -/
def scan_t_add {d : Nat} (a b : MortonCounts d) (across_seg_boundary : Bool) :
    MortonCounts d :=
  if across_seg_boundary then b
  else
    { nonchild_srcntgts := a.nonchild_srcntgts + b.nonchild_srcntgts
      pcnt := fun k => a.pcnt k + b.pcnt k
      pwt := fun k => my_add_sat (a.pwt k) (b.pwt k) }

/-! ## `get_count` (SPLIT_AND_SORT_PREAMBLE_TPL)

The mako helper `get_count_for_branch(known_bits)` generates a nested
conditional: with `dim = len(known_bits)` bits already known, the boundary is
the morton number `known_bits ++ "1" ++ "0"^(dimensions-dim-1)` and the code
branches on `morton_nr < boundary`.  A prefix of `dim` known bits of value
`pv` with `r = dimensions - dim` bits remaining becomes the pair `(pv, r)`;
the boundary is `pv * 2^(r+1) + 2^r` when one more bit is to be decided. -/

def get_count_for_branch {d : Nat} (counts : MortonCounts d) (morton_nr : Int) :
    Nat → Nat → Nat
  | pv, 0 => if h : pv < 2 ^ d then counts.pcnt ⟨pv, h⟩ else 0
  | pv, r + 1 =>
    if morton_nr < ((pv * 2 ^ (r + 1) + 2 ^ r : Nat) : Int) then
      get_count_for_branch counts morton_nr (2 * pv) r
    else
      get_count_for_branch counts morton_nr (2 * pv + 1) r

/-- `get_count`: with extents enabled, morton number `-1` selects the
`nonchild_srcntgts` field; otherwise the generated branch tree is consulted
starting from the empty prefix. -/
def get_count {d : Nat} (ext : Bool) (counts : MortonCounts d)
    (morton_nr : Int) : Nat :=
  if ext then
    if morton_nr = -1 then counts.nonchild_srcntgts
    else get_count_for_branch counts morton_nr 0 d
  else get_count_for_branch counts morton_nr 0 d

theorem get_count_for_branch_eq {d : Nat} (counts : MortonCounts d)
    (k : Fin (2 ^ d)) :
    ∀ (r pv : Nat), pv * 2 ^ r ≤ (k : Nat) → (k : Nat) < (pv + 1) * 2 ^ r →
      get_count_for_branch counts ((k : Nat) : Int) pv r = counts.pcnt k := by
  intro r
  induction r with
  | zero =>
    intro pv h1 h2
    simp only [pow_zero, mul_one] at h1 h2
    have hpv : pv = (k : Nat) := by omega
    subst hpv
    simp [get_count_for_branch, k.isLt, Fin.eta]
  | succ r ih =>
    intro pv h1 h2
    by_cases hlt : ((k : Nat) : Int) < ((pv * 2 ^ (r + 1) + 2 ^ r : Nat) : Int)
    · rw [get_count_for_branch, if_pos hlt]
      have hlt' : (k : Nat) < pv * 2 ^ (r + 1) + 2 ^ r := by exact_mod_cast hlt
      refine ih (2 * pv) ?_ ?_
      · calc 2 * pv * 2 ^ r = pv * 2 ^ (r + 1) := by ring
        _ ≤ (k : Nat) := h1
      · calc (k : Nat) < pv * 2 ^ (r + 1) + 2 ^ r := hlt'
        _ = (2 * pv + 1) * 2 ^ r := by ring
    · rw [get_count_for_branch, if_neg hlt]
      have hge : pv * 2 ^ (r + 1) + 2 ^ r ≤ (k : Nat) := by
        have := not_lt.mp hlt
        exact_mod_cast this
      refine ih (2 * pv + 1) ?_ ?_
      · calc (2 * pv + 1) * 2 ^ r = pv * 2 ^ (r + 1) + 2 ^ r := by ring
        _ ≤ (k : Nat) := hge
      · calc (k : Nat) < (pv + 1) * 2 ^ (r + 1) := h2
        _ = (2 * pv + 1 + 1) * 2 ^ r := by ring

/-- `get_count` at a genuine octant number is direct field selection. -/
theorem get_count_eq_pcnt {d : Nat} (ext : Bool) (counts : MortonCounts d)
    (k : Fin (2 ^ d)) : get_count ext counts ((k : Nat) : Int) = counts.pcnt k := by
  have hbranch := get_count_for_branch_eq counts k d 0 (by simp) (by simpa using k.isLt)
  have hne : ((k : Nat) : Int) ≠ -1 := by
    have : (0 : Int) ≤ ((k : Nat) : Int) := Int.natCast_nonneg _
    omega
  cases ext with
  | false => simpa [get_count] using hbranch
  | true => simpa [get_count, hne] using hbranch

/-- C10: for every morton bin count record `c` and every morton number
`0 ≤ m < 2^d` (presented as `k : Fin (2^d)`), the generated nested-conditional
lookup `get_count` returns exactly the octant-count field `pcnt_m`, and with
extents enabled `get_count c (-1)` returns `c.nonchild_srcntgts`: the
binary-search branch tree is extensionally equal to direct field selection. -/
theorem claim_C10_get_count {d : Nat} (ext : Bool) (c : MortonCounts d)
    (k : Fin (2 ^ d)) :
    get_count ext c ((k : Nat) : Int) = c.pcnt k ∧
      get_count true c (-1) = c.nonchild_srcntgts := by
  exact ⟨get_count_eq_pcnt ext c k, by simp [get_count]⟩

/-! ## C6: the scan merge operator -/

theorem my_add_sat_comm (a b : Int) : my_add_sat a b = my_add_sat b a := by
  simp [my_add_sat, Int.add_comm]

theorem my_add_sat_eq_min {a b : Int} (h0a : 0 ≤ a) (h0b : 0 ≤ b) :
    my_add_sat a b = min (a + b) INT_MAX := by
  unfold my_add_sat
  by_cases h : a + b > INT_MAX
  · rw [if_pos h]; omega
  · rw [if_neg h, wrap32_eq_self (by unfold INT_MIN; omega) (by omega)]; omega

theorem my_add_sat_nonneg {a b : Int} (h0a : 0 ≤ a) (h0b : 0 ≤ b) :
    0 ≤ my_add_sat a b := by
  rw [my_add_sat_eq_min h0a h0b]; unfold INT_MAX; omega

theorem my_add_sat_le {a b : Int} (h0a : 0 ≤ a) (h0b : 0 ≤ b) :
    my_add_sat a b ≤ INT_MAX := by
  rw [my_add_sat_eq_min h0a h0b]; omega

/-- On non-negative summands, `my_add_sat` is associative
(saturation only ever clamps from above). -/
theorem my_add_sat_assoc {a b c : Int} (h0a : 0 ≤ a) (h0b : 0 ≤ b)
    (h0c : 0 ≤ c) :
    my_add_sat (my_add_sat a b) c = my_add_sat a (my_add_sat b c) := by
  rw [my_add_sat_eq_min (my_add_sat_nonneg h0a h0b) h0c,
    my_add_sat_eq_min h0a (my_add_sat_nonneg h0b h0c),
    my_add_sat_eq_min h0a h0b, my_add_sat_eq_min h0b h0c]
  unfold INT_MAX
  omega

/-- Concrete morton bin count records (d = 1) witnessing that `scan_t_add`
is not associative on arbitrary `int32` weight values. -/
def scan_add_cex_a : MortonCounts 1 :=
  { nonchild_srcntgts := 0, pcnt := fun _ => 0, pwt := fun _ => INT_MAX }

def scan_add_cex_b : MortonCounts 1 :=
  { nonchild_srcntgts := 0, pcnt := fun _ => 0, pwt := fun _ => 1 }

def scan_add_cex_c : MortonCounts 1 :=
  { nonchild_srcntgts := 0, pcnt := fun _ => 0, pwt := fun _ => -1 }

/-- C6 counterexample: the claim asserts that, for ALL records `a b c`,
combining with the non-segment-boundary `scan_t_add` under any
parenthesization yields equal field values.  With the weight fields
`(INT_MAX, 1, -1)`, left association saturates (`INT_MAX`) and then subtracts
(`INT_MAX - 1`), while right association adds `0` to `INT_MAX`: the weight
fields differ, so the operator is not associative on all records. -/
theorem claim_C6_counterexample :
    (scan_t_add (scan_t_add scan_add_cex_a scan_add_cex_b false)
        scan_add_cex_c false).pwt 0
      ≠ (scan_t_add scan_add_cex_a
          (scan_t_add scan_add_cex_b scan_add_cex_c false) false).pwt 0 := by
  decide

/-- C6 (amended): the non-segment-boundary `scan_t_add` is commutative in
every count and weight field for ALL records, and it is associative in every
field for records whose weight fields are non-negative (as produced by the
scan from non-negative refine weights); on arbitrary (possibly negative)
`int32` weights associativity fails (see the counterexample). -/
theorem claim_C6_scan_add_assoc_comm {d : Nat} (a b c : MortonCounts d) :
    (scan_t_add a b false = scan_t_add b a false) ∧
      ((∀ k, 0 ≤ a.pwt k) → (∀ k, 0 ≤ b.pwt k) → (∀ k, 0 ≤ c.pwt k) →
        scan_t_add (scan_t_add a b false) c false
          = scan_t_add a (scan_t_add b c false) false) := by
  constructor
  · rw [MortonCounts.ext_iff']
    refine ⟨?_, ?_, ?_⟩
    · simp only [scan_t_add, Bool.false_eq_true, if_false]
      omega
    · intro k
      simp only [scan_t_add, Bool.false_eq_true, if_false]
      omega
    · intro k
      simp only [scan_t_add, Bool.false_eq_true, if_false]
      exact my_add_sat_comm _ _
  · intro ha hb hc
    rw [MortonCounts.ext_iff']
    refine ⟨?_, ?_, ?_⟩
    · simp only [scan_t_add, Bool.false_eq_true, if_false]
      omega
    · intro k
      simp only [scan_t_add, Bool.false_eq_true, if_false]
      omega
    · intro k
      simp only [scan_t_add, Bool.false_eq_true, if_false]
      exact my_add_sat_assoc (ha k) (hb k) (hc k)

/-- Witness for C6: commutativity at the (negative-weight) counterexample
records, associativity at concrete records with non-negative weights. -/
theorem claim_C6_witness :
    ((∀ k, 0 ≤ scan_add_cex_a.pwt k) ∧ (∀ k, 0 ≤ scan_add_cex_b.pwt k)) ∧
      (scan_t_add scan_add_cex_a scan_add_cex_c false
          = scan_t_add scan_add_cex_c scan_add_cex_a false ∧
        scan_t_add (scan_t_add scan_add_cex_a scan_add_cex_b false)
            scan_add_cex_b false
          = scan_t_add scan_add_cex_a
              (scan_t_add scan_add_cex_b scan_add_cex_b false) false) :=
  ⟨⟨by decide, by decide⟩,
    (claim_C6_scan_add_assoc_comm scan_add_cex_a scan_add_cex_c
      scan_add_cex_c).1,
    (claim_C6_scan_add_assoc_comm scan_add_cex_a scan_add_cex_b
      scan_add_cex_b).2 (by decide) (by decide) (by decide)⟩

/-! ## The split-decision scan (SPLIT_BOX_ID_SCAN_TPL)

A global (non-segmented) scan over particles.  `count_new_boxes_needed` is
the per-element input; the scan expression is `a + b` with neutral `0`; the
output statement stores the running value `item` (the INCLUSIVE prefix sum,
in pyopencl's `GenericScanKernel` semantics) into `split_box_ids[i]`. -/

structure SplitScanState (d : Nat) where
  ext : Bool
  adaptive : Bool
  nsrcntgts : Nat
  level : Nat
  max_leaf_refine_weight : Int
  /-- carried over from the previous level; seeds the scan at `i = 0` -/
  nboxes : Nat
  srcntgt_box_ids : Nat → Nat
  box_srcntgt_starts : Nat → Nat
  box_srcntgt_counts_cumul : Nat → Nat
  box_morton_bin_counts : Nat → MortonCounts d
  box_levels : Nat → Nat

/-- The box refine weight: `add_sat` of the box's per-octant weight totals,
folded in octant order (the generated code unrolls the loop). -/
def box_refine_weight {d : Nat} (t : SplitScanState d) (b : Nat) : Int :=
  (List.finRange (2 ^ d)).foldl
    (fun acc mnr => add_sat acc ((t.box_morton_bin_counts b).pwt mnr)) 0

/-- `nonchild_srcntgts_in_box`: the box's non-child count with extents,
literal `0` otherwise. -/
def nonchild_srcntgts_in_box {d : Nat} (t : SplitScanState d) (b : Nat) : Nat :=
  if t.ext then (t.box_morton_bin_counts b).nonchild_srcntgts else 0

/-- The split test of `count_new_boxes_needed`: box overfull (adaptive) or
box non-empty after removing non-child srcntgts (non-adaptive). -/
def box_split_test {d : Nat} (t : SplitScanState d) (b : Nat) : Bool :=
  if t.adaptive then
    decide (t.max_leaf_refine_weight < box_refine_weight t b)
  else
    decide (0 < t.box_srcntgt_counts_cumul b - nonchild_srcntgts_in_box t b)

/-- The full guard under which particle `i` asks for `2^d` new boxes: first
particle of its box, and — only when srcntgts have extent — the box stems
from the immediately preceding level, and the split test passes. -/
def split_seed {d : Nat} (t : SplitScanState d) (i : Nat) : Bool :=
  decide (i = t.box_srcntgt_starts (t.srcntgt_box_ids i)) &&
    (!t.ext || decide (t.box_levels (t.srcntgt_box_ids i) + 1 = t.level)) &&
    box_split_test t (t.srcntgt_box_ids i)

/-- `count_new_boxes_needed`: the scan input of particle `i` — the previous
level's box count at `i = 0`, plus `2^d` when the guard passes. -/
def count_new_boxes_needed {d : Nat} (t : SplitScanState d) (i : Nat) : Nat :=
  (if i = 0 then t.nboxes else 0) + (if split_seed t i then 2 ^ d else 0)

/-- `split_box_ids[i] = item`: the inclusive prefix sum of the scan inputs. -/
def split_box_ids {d : Nat} (t : SplitScanState d) : Nat → Nat
  | 0 => count_new_boxes_needed t 0
  | i + 1 => split_box_ids t i + count_new_boxes_needed t (i + 1)

/-- The `box_has_children` output array: set for box `b` exactly when the
guard fires at `b`'s first particle (which must exist among the `nsrcntgts`
particles and belong to `b`). -/
def box_has_children_out {d : Nat} (t : SplitScanState d) (b : Nat) : Bool :=
  decide (t.box_srcntgt_starts b < t.nsrcntgts) &&
    decide (t.srcntgt_box_ids (t.box_srcntgt_starts b) = b) &&
    split_seed t (t.box_srcntgt_starts b)

/-- The claim's reading of the scan output (C2): the EXCLUSIVE prefix sum of
the per-particle contributions. -/
def split_box_ids_exclusive {d : Nat} (t : SplitScanState d) (i : Nat) : Nat :=
  ∑ j in Finset.range i, count_new_boxes_needed t j

/-- Number of split-guard hits among particles `0..i` (inclusive). -/
def num_split_seeds {d : Nat} (t : SplitScanState d) (i : Nat) : Nat :=
  ((Finset.range (i + 1)).filter (fun j => split_seed t j = true)).card

theorem num_split_seeds_succ {d : Nat} (t : SplitScanState d) (i : Nat) :
    num_split_seeds t (i + 1)
      = num_split_seeds t i + (if split_seed t (i + 1) then 1 else 0) := by
  unfold num_split_seeds
  rw [Finset.range_succ, Finset.filter_insert]
  by_cases h : split_seed t (i + 1) = true
  · rw [if_pos h, Finset.card_insert_of_not_mem (by simp), if_pos h]
  · rw [if_neg h, if_neg h]
    omega

/-- A single concrete state (d = 1, no extents, non-adaptive): one box `0`
holding one particle, one previous-level box, carried box count 1. -/
def split_scan_cex : SplitScanState 1 where
  ext := false
  adaptive := false
  nsrcntgts := 1
  level := 5
  max_leaf_refine_weight := 0
  nboxes := 1
  srcntgt_box_ids := fun _ => 0
  box_srcntgt_starts := fun _ => 0
  box_srcntgt_counts_cumul := fun _ => 1
  box_morton_bin_counts := fun _ => scan_t_neutral 1
  box_levels := fun _ => 0

/-- C2 counterexample: the code's per-element output (`item`, the inclusive
prefix sum) differs from the claimed exclusive prefix sum already at `i = 0`:
the code emits `nboxes + 2^d = 3`, the exclusive sum is `0`. -/
theorem claim_C2_counterexample :
    split_box_ids split_scan_cex 0 ≠ split_box_ids_exclusive split_scan_cex 0 := by
  decide

/-- C2 (amended): `split_box_ids[i]` is the INCLUSIVE prefix sum of the
per-particle new-box-allocation contributions — equivalently, the previous
level's box count plus `2^d` for every guard hit at a particle `≤ i` — and
for the particles sorted into a newly created child with local morton number
`m`, the absolute id `split_box_ids[i] - 2^d + m` equals
`nboxes + 2^d * (k - 1) + m` where `k ≥ 1` is the number of splitting boxes
seen so far; in particular every new id is at least `nboxes` (fresh). -/
theorem claim_C2_split_box_id_scan {d : Nat} (t : SplitScanState d) (i : Nat) :
    split_box_ids t i = t.nboxes + 2 ^ d * num_split_seeds t i ∧
      (∀ j m : Nat, j ≤ i → split_seed t j = true → m < 2 ^ d →
        (t.nboxes : Int) ≤ (split_box_ids t i : Int) - 2 ^ d + (m : Int) ∧
          (split_box_ids t i : Int) - 2 ^ d + (m : Int)
            = (t.nboxes : Int) + 2 ^ d * ((num_split_seeds t i : Int) - 1)
              + (m : Int)) := by
  have hsum : split_box_ids t i = t.nboxes + 2 ^ d * num_split_seeds t i := by
    induction i with
    | zero =>
      simp only [split_box_ids, count_new_boxes_needed, if_pos rfl,
        num_split_seeds, Finset.range_one]
      by_cases h : split_seed t 0 = true
      · simp [h, Finset.filter_singleton]
      · simp [h, Finset.filter_singleton]
    | succ i ih =>
      have h1 : split_box_ids t (i + 1)
          = split_box_ids t i + count_new_boxes_needed t (i + 1) := rfl
      rw [h1, ih, num_split_seeds_succ, count_new_boxes_needed,
        if_neg (Nat.succ_ne_zero i)]
      by_cases h : split_seed t (i + 1) = true
      · simp [h]; ring
      · simp [h]
  refine ⟨hsum, fun j m hj hseed hm => ?_⟩
  have hk : 1 ≤ num_split_seeds t i := by
    have hmem : j ∈ (Finset.range (i + 1)).filter (fun j => split_seed t j = true) := by
      simp only [Finset.mem_filter, Finset.mem_range]
      exact ⟨Nat.lt_succ_of_le hj, hseed⟩
    have : 0 < num_split_seeds t i := Finset.card_pos.mpr ⟨j, hmem⟩
    omega
  have h2d : (0 : Int) < 2 ^ d := by positivity
  constructor
  · rw [hsum]
    push_cast
    nlinarith [h2d, (Int.natCast_nonneg m : (0 : Int) ≤ (m : Int)),
      (by exact_mod_cast hk : (1 : Int) ≤ (num_split_seeds t i : Int))]
  · rw [hsum]
    push_cast
    ring

/-- Witness for C2 at the concrete state: particle 0 seeds a split, and the
freshly allocated child box ids start at the carried box count. -/
theorem claim_C2_witness :
    (0 ≤ 0 ∧ split_seed split_scan_cex 0 = true ∧ 0 < 2 ^ 1) ∧
      ((split_scan_cex.nboxes : Int)
          ≤ (split_box_ids split_scan_cex 0 : Int) - 2 ^ 1 + (0 : Int) ∧
        (split_box_ids split_scan_cex 0 : Int) - 2 ^ 1 + (0 : Int)
          = (split_scan_cex.nboxes : Int)
            + 2 ^ 1 * ((num_split_seeds split_scan_cex 0 : Int) - 1)
            + (0 : Int)) :=
  ⟨⟨le_refl 0, by decide, by decide⟩,
    (claim_C2_split_box_id_scan split_scan_cex 0).2 0 0 (le_refl 0)
      (by decide) (by decide)⟩

/-- `split_seed`, spelled out as a proposition. -/
theorem split_seed_eq_true_iff {d : Nat} (t : SplitScanState d) (i : Nat) :
    split_seed t i = true ↔
      (i = t.box_srcntgt_starts (t.srcntgt_box_ids i) ∧
        (t.ext = true → t.box_levels (t.srcntgt_box_ids i) + 1 = t.level) ∧
        (if t.adaptive then
            t.max_leaf_refine_weight < box_refine_weight t (t.srcntgt_box_ids i)
          else
            0 < t.box_srcntgt_counts_cumul (t.srcntgt_box_ids i)
              - nonchild_srcntgts_in_box t (t.srcntgt_box_ids i))) := by
  unfold split_seed box_split_test
  rcases ht : t.ext <;> rcases ha : t.adaptive <;>
    simp [ht, ha, and_assoc]

/-- C3 counterexample: without extents the kernel has NO level restriction.
In the concrete (non-adaptive, extent-free) state, box `0` was created at
level `0` while level `5` is being built, yet the guard fires at its first
particle — `2^d` is added and the box is marked as having children — so the
claim "the split test is applied ... only for boxes created on the
immediately preceding level" is false as stated. -/
theorem claim_C3_counterexample :
    box_has_children_out split_scan_cex 0 = true ∧
      count_new_boxes_needed split_scan_cex 0 = split_scan_cex.nboxes + 2 ^ 1 ∧
      split_scan_cex.box_levels 0 + 1 ≠ split_scan_cex.level := by
  decide

/-- C3 (amended): at every level, the guard of the split test requires that
the tested particle is the first particle of its box and — when srcntgts
have extent — that the box was created on the immediately preceding level
(without extents there is no level restriction); the test passes in adaptive
mode exactly when the box's accumulated refine weight exceeds the configured
maximum leaf weight, and in non-adaptive mode exactly when the box holds at
least one particle besides its non-child particles; a passing test adds
exactly `2^d` to the running total and marks the box as having children. -/
theorem claim_C3_split_decision {d : Nat} (t : SplitScanState d) (i b : Nat) :
    (count_new_boxes_needed t i = (if i = 0 then t.nboxes else 0) + 2 ^ d ↔
        (i = t.box_srcntgt_starts (t.srcntgt_box_ids i) ∧
          (t.ext = true → t.box_levels (t.srcntgt_box_ids i) + 1 = t.level) ∧
          (if t.adaptive then
              t.max_leaf_refine_weight
                < box_refine_weight t (t.srcntgt_box_ids i)
            else
              0 < t.box_srcntgt_counts_cumul (t.srcntgt_box_ids i)
                - nonchild_srcntgts_in_box t (t.srcntgt_box_ids i)))) ∧
      (split_seed t i = false →
        count_new_boxes_needed t i = (if i = 0 then t.nboxes else 0)) ∧
      (box_has_children_out t b = true ↔
        (t.box_srcntgt_starts b < t.nsrcntgts ∧
          t.srcntgt_box_ids (t.box_srcntgt_starts b) = b ∧
          split_seed t (t.box_srcntgt_starts b) = true)) := by
  have h2d : 0 < 2 ^ d := Nat.pos_pow_of_pos d (by norm_num)
  refine ⟨?_, ?_, ?_⟩
  · rw [← split_seed_eq_true_iff]
    unfold count_new_boxes_needed
    cases hs : split_seed t i with
    | true => simp [hs]
    | false =>
      simp only [hs, Bool.false_eq_true, if_false]
      constructor
      · intro heq; exfalso; omega
      · intro hc; exact absurd hc (by simp)
  · intro h
    unfold count_new_boxes_needed
    rw [h]
    simp
  · unfold box_has_children_out
    simp [and_assoc]

/-- Witness for C3: at the second particle of the concrete state the guard
does not fire and the scan input is just the seed. -/
theorem claim_C3_witness :
    (split_seed split_scan_cex 1 = false) ∧
      count_new_boxes_needed split_scan_cex 1
        = (if (1 : Nat) = 0 then split_scan_cex.nboxes else 0) :=
  ⟨by decide, (claim_C3_split_decision split_scan_cex 1 0).2.1 (by decide)⟩

/-! ## The morton-count scan and the split-and-sort realization pass

`morton_count_scan` is a segmented inclusive scan over particles: the
per-element input is the indicator record produced by
`scan_t_from_particle` (whose side effect stores each particle's local
morton number into `morton_nrs`), the merge is `scan_t_add` and segments
start where `box_start_flags` is set.  The split-and-sort kernel
(`SPLIT_AND_SORT_KERNEL_TPL`) then runs elementwise over particles.  The
state below gathers the arrays both kernels touch; `morton_nrs` stands for
the already-computed side-effect output of the scan input expression. -/

structure LevelState (d : Nat) where
  ext : Bool
  /-- number of srcntgts -/
  n : Nat
  level : Nat
  morton_nrs : Nat → Int
  user_srcntgt_ids : Nat → Nat
  refine_weights : Nat → Int
  box_start_flags : Nat → Bool
  srcntgt_box_ids : Nat → Nat
  split_box_ids : Nat → Nat
  box_srcntgt_starts : Nat → Nat
  box_srcntgt_counts_cumul : Nat → Nat
  box_levels : Nat → Nat
  box_has_children : Nat → Bool

/-- The record returned by `scan_t_from_particle` for particle `i`: exactly
one of the `2^d` octant-count fields is `1` (or, with extents, the non-child
field when the morton number is `-1`), the matching weight field carries the
particle's refine weight, everything else is zero. -/
def scan_t_from_particle_result {d : Nat} (s : LevelState d) (i : Nat) :
    MortonCounts d where
  nonchild_srcntgts := if s.morton_nrs i = -1 then 1 else 0
  pcnt := fun k => if s.morton_nrs i = ((k : Nat) : Int) then 1 else 0
  pwt := fun k =>
    if s.morton_nrs i = ((k : Nat) : Int) then
      s.refine_weights (s.user_srcntgt_ids i)
    else 0

/-- `morton_bin_counts[i]` — the inclusive segmented scan value at particle
`i` (pyopencl `item`), stored by the scan output statement. -/
def morton_bin_counts {d : Nat} (s : LevelState d) : Nat → MortonCounts d
  | 0 => scan_t_from_particle_result s 0
  | i + 1 =>
    scan_t_add (morton_bin_counts s i) (scan_t_from_particle_result s (i + 1))
      (s.box_start_flags (i + 1))

/-- `box_morton_bin_counts[b]` — written by the LAST particle of box `b`
(the one with `my_id_in_my_box + 1 = box_srcntgt_count`), i.e. the scan
value at index `start + count - 1`. -/
def box_morton_bin_counts {d : Nat} (s : LevelState d) (b : Nat) :
    MortonCounts d :=
  morton_bin_counts s
    (s.box_srcntgt_starts b + s.box_srcntgt_counts_cumul b - 1)

/-- `do_split_box` of the split-and-sort kernel: the box is marked as having
children and — only when srcntgts have extent — was created on the
immediately preceding level. -/
def do_split_box {d : Nat} (s : LevelState d) (b : Nat) : Bool :=
  s.box_has_children b && (!s.ext || decide (s.box_levels b + 1 = s.level))

/-- `my_count` of the split-and-sort kernel. -/
def my_count {d : Nat} (s : LevelState d) (i : Nat) : Nat :=
  get_count s.ext (morton_bin_counts s i) (s.morton_nrs i)

/-- `tgt_particle_idx`: box start, plus this particle's segmented cumulative
count within its morton bin minus one, plus (with extents, for proper child
particles) the box's non-child total, plus the box totals of all smaller
octants. -/
def tgt_particle_idx {d : Nat} (s : LevelState d) (i : Nat) : Nat :=
  s.box_srcntgt_starts (s.srcntgt_box_ids i) + my_count s i - 1
    + (if s.ext then
        (if 0 ≤ s.morton_nrs i then
          (box_morton_bin_counts s (s.srcntgt_box_ids i)).nonchild_srcntgts
        else 0)
      else 0)
    + ∑ mnr : Fin (2 ^ d),
        (if ((mnr : Nat) : Int) < s.morton_nrs i then
          (box_morton_bin_counts s (s.srcntgt_box_ids i)).pcnt mnr
        else 0)

/-- The output slot particle `i` is written to: `tgt_particle_idx` in a
splitting box, the particle's own index otherwise (the kernel's else-branch
copies the particle in place). -/
def new_particle_idx {d : Nat} (s : LevelState d) (i : Nat) : Nat :=
  if do_split_box s (s.srcntgt_box_ids i) then tgt_particle_idx s i else i

/-- `new_srcntgt_box_ids`: `split_box_ids[i] - 2^d + morton` for particles
descending into a child, the current box for non-child particles (extents)
and for particles of non-splitting boxes. -/
def new_srcntgt_box_id {d : Nat} (s : LevelState d) (i : Nat) : Int :=
  if do_split_box s (s.srcntgt_box_ids i) then
    (if s.ext = true ∧ s.morton_nrs i = -1 then (s.srcntgt_box_ids i : Int)
     else (s.split_box_ids i : Int) - 2 ^ d + s.morton_nrs i)
  else (s.srcntgt_box_ids i : Int)

/-- The contiguous particle range of box `b`. -/
def box_range {d : Nat} (s : LevelState d) (b : Nat) : Finset Nat :=
  Finset.Ico (s.box_srcntgt_starts b)
    (s.box_srcntgt_starts b + s.box_srcntgt_counts_cumul b)

/-- Well-formedness of the per-level arrays, as established by the level
loop: every particle lies in its box's particle range; box ranges stay
within the particle array; box ranges are flat (any particle index inside
the range of particle `i`'s box is assigned to that box); the segment flags
are set exactly at box starts; morton numbers are `-1` (only with extents)
or a valid octant. -/
abbrev GoodLayout {d : Nat} (s : LevelState d) : Prop :=
  (∀ i, i < s.n →
      s.box_srcntgt_starts (s.srcntgt_box_ids i) ≤ i ∧
        i < s.box_srcntgt_starts (s.srcntgt_box_ids i)
            + s.box_srcntgt_counts_cumul (s.srcntgt_box_ids i)) ∧
  (∀ i, i < s.n →
      s.box_srcntgt_starts (s.srcntgt_box_ids i)
          + s.box_srcntgt_counts_cumul (s.srcntgt_box_ids i) ≤ s.n) ∧
  (∀ i, i < s.n → ∀ j, j < s.n →
      s.box_srcntgt_starts (s.srcntgt_box_ids i) ≤ j →
      j < s.box_srcntgt_starts (s.srcntgt_box_ids i)
          + s.box_srcntgt_counts_cumul (s.srcntgt_box_ids i) →
      s.srcntgt_box_ids j = s.srcntgt_box_ids i) ∧
  (∀ j, j < s.n →
      (s.box_start_flags j = true ↔
        j = s.box_srcntgt_starts (s.srcntgt_box_ids j))) ∧
  (∀ i, i < s.n →
      -1 ≤ s.morton_nrs i ∧ s.morton_nrs i < 2 ^ d ∧
        (s.ext = false → 0 ≤ s.morton_nrs i))

theorem Icc_succ_insert {a i : Nat} (h : a ≤ i + 1) :
    Finset.Icc a (i + 1) = insert (i + 1) (Finset.Icc a i) := by
  ext x
  simp only [Finset.mem_Icc, Finset.mem_insert]
  omega

theorem Icc_last_eq_Ico {a c : Nat} (h : 1 ≤ c) :
    Finset.Icc a (a + c - 1) = Finset.Ico a (a + c) := by
  ext x
  simp only [Finset.mem_Icc, Finset.mem_Ico]
  omega

/-- Sequential characterization of the segmented inclusive scan: on a
segment that starts at `a` (no further segment boundary up to `i`), any
additively tracked indicator field of the scan value at `i` counts the
particles in `[a, i]` satisfying the indicator's predicate. -/
theorem segscan_field_eq {d : Nat} (s : LevelState d)
    (f : MortonCounts d → Nat) (p : Nat → Prop) [DecidablePred p]
    (hf1 : ∀ i, f (scan_t_from_particle_result s i) = if p i then 1 else 0)
    (hf2 : ∀ x y, f (scan_t_add x y false) = f x + f y)
    {a : Nat} (ha : a = 0 ∨ s.box_start_flags a = true) :
    ∀ {i : Nat}, a ≤ i →
      (∀ j, a < j → j ≤ i → s.box_start_flags j = false) →
      f (morton_bin_counts s i) = ((Finset.Icc a i).filter p).card := by
  intro i hai
  induction i, hai using Nat.le_induction with
  | base =>
    intro _
    have hbase : morton_bin_counts s a = scan_t_from_particle_result s a := by
      cases a with
      | zero => rfl
      | succ a' =>
        rcases ha with h0 | hflag
        · exact absurd h0 (Nat.succ_ne_zero a')
        · show scan_t_add _ _ (s.box_start_flags (a' + 1)) = _
          rw [hflag]
          rfl
    rw [hbase, hf1, Finset.Icc_self, Finset.filter_singleton]
    by_cases hp : p a
    · rw [if_pos hp, if_pos hp, Finset.card_singleton]
    · rw [if_neg hp, if_neg hp, Finset.card_empty]
  | succ i hai ih =>
    intro hflags
    have hflag : s.box_start_flags (i + 1) = false :=
      hflags (i + 1) (by omega) (le_refl _)
    have hstep : morton_bin_counts s (i + 1)
        = scan_t_add (morton_bin_counts s i)
            (scan_t_from_particle_result s (i + 1)) false := by
      show scan_t_add _ _ (s.box_start_flags (i + 1)) = _
      rw [hflag]
    rw [hstep, hf2, hf1, ih (fun j h1 h2 => hflags j h1 (by omega)),
      Icc_succ_insert (by omega), Finset.filter_insert]
    by_cases hp : p (i + 1)
    · rw [if_pos hp, if_pos hp,
        Finset.card_insert_of_not_mem (by simp)]
    · rw [if_neg hp, if_neg hp]
      omega

section RealizeLemmas

variable {d : Nat} {s : LevelState d}

theorem mem_box_range_facts (H : GoodLayout s) {i j : Nat} (hi : i < s.n)
    (hj : j ∈ box_range s (s.srcntgt_box_ids i)) :
    j < s.n ∧ s.srcntgt_box_ids j = s.srcntgt_box_ids i := by
  rw [box_range, Finset.mem_Ico] at hj
  have hn : j < s.n := by
    have := H.2.1 i hi
    omega
  exact ⟨hn, H.2.2.1 i hi j hn hj.1 hj.2⟩

theorem self_mem_box_range (H : GoodLayout s) {i : Nat} (hi : i < s.n) :
    i ∈ box_range s (s.srcntgt_box_ids i) := by
  rw [box_range, Finset.mem_Ico]
  exact H.1 i hi

theorem box_count_pos (H : GoodLayout s) {i : Nat} (hi : i < s.n) :
    1 ≤ s.box_srcntgt_counts_cumul (s.srcntgt_box_ids i) := by
  have := H.1 i hi
  omega

theorem flag_at_box_start (H : GoodLayout s) {i : Nat} (hi : i < s.n) :
    s.box_srcntgt_starts (s.srcntgt_box_ids i) = 0 ∨
      s.box_start_flags (s.box_srcntgt_starts (s.srcntgt_box_ids i)) = true := by
  rcases Nat.eq_zero_or_pos (s.box_srcntgt_starts (s.srcntgt_box_ids i)) with h0 | hpos
  · exact Or.inl h0
  · right
    have hmem : s.box_srcntgt_starts (s.srcntgt_box_ids i)
        ∈ box_range s (s.srcntgt_box_ids i) := by
      rw [box_range, Finset.mem_Ico]
      have := H.1 i hi
      omega
    obtain ⟨hn, hb⟩ := mem_box_range_facts H hi hmem
    rw [H.2.2.2.1 _ hn, hb]

theorem flags_false_inside (H : GoodLayout s) {i : Nat} (hi : i < s.n) :
    ∀ j, s.box_srcntgt_starts (s.srcntgt_box_ids i) < j →
      j ≤ s.box_srcntgt_starts (s.srcntgt_box_ids i)
          + s.box_srcntgt_counts_cumul (s.srcntgt_box_ids i) - 1 →
      s.box_start_flags j = false := by
  intro j h1 h2
  have hc := box_count_pos H hi
  have hmem : j ∈ box_range s (s.srcntgt_box_ids i) := by
    rw [box_range, Finset.mem_Ico]
    omega
  obtain ⟨hn, hb⟩ := mem_box_range_facts H hi hmem
  have hiff := H.2.2.2.1 j hn
  rw [hb] at hiff
  rcases hfj : s.box_start_flags j with _ | _
  · rfl
  · exact absurd (hiff.mp hfj) (by omega)

/-- Cumulative count of morton number `m` within the segment of particle
`i`'s box, up to and including `i`. -/
def cum_count (s : LevelState d) (i : Nat) (m : Int) : Nat :=
  ((Finset.Icc (s.box_srcntgt_starts (s.srcntgt_box_ids i)) i).filter
    (fun j => s.morton_nrs j = m)).card

/-- Total count of morton number `m` over the whole particle range of
box `b`. -/
def box_count (s : LevelState d) (b : Nat) (m : Int) : Nat :=
  ((box_range s b).filter (fun j => s.morton_nrs j = m)).card

theorem mbc_pcnt_eq (H : GoodLayout s) {i : Nat} (hi : i < s.n)
    (k : Fin (2 ^ d)) :
    (morton_bin_counts s i).pcnt k = cum_count s i ((k : Nat) : Int) :=
  segscan_field_eq s (fun r => r.pcnt k)
    (fun j => s.morton_nrs j = ((k : Nat) : Int))
    (fun _ => rfl) (fun x y => by simp [scan_t_add])
    (flag_at_box_start H hi) (H.1 i hi).1
    (fun j h1 h2 => by
      refine flags_false_inside H hi j h1 ?_
      have := H.1 i hi
      omega)

theorem mbc_nonchild_eq (H : GoodLayout s) {i : Nat} (hi : i < s.n) :
    (morton_bin_counts s i).nonchild_srcntgts = cum_count s i (-1) :=
  segscan_field_eq s (fun r => r.nonchild_srcntgts)
    (fun j => s.morton_nrs j = -1)
    (fun _ => rfl) (fun x y => by simp [scan_t_add])
    (flag_at_box_start H hi) (H.1 i hi).1
    (fun j h1 h2 => by
      refine flags_false_inside H hi j h1 ?_
      have := H.1 i hi
      omega)

theorem box_mbc_pcnt_eq (H : GoodLayout s) {i : Nat} (hi : i < s.n)
    (k : Fin (2 ^ d)) :
    (box_morton_bin_counts s (s.srcntgt_box_ids i)).pcnt k
      = box_count s (s.srcntgt_box_ids i) ((k : Nat) : Int) := by
  have hc := box_count_pos H hi
  have heq := segscan_field_eq s (fun r => r.pcnt k)
    (fun j => s.morton_nrs j = ((k : Nat) : Int))
    (fun _ => rfl) (fun x y => by simp [scan_t_add])
    (flag_at_box_start H hi)
    (i := s.box_srcntgt_starts (s.srcntgt_box_ids i)
      + s.box_srcntgt_counts_cumul (s.srcntgt_box_ids i) - 1)
    (by omega)
    (fun j h1 h2 => flags_false_inside H hi j h1 h2)
  rw [box_morton_bin_counts, box_count, box_range, ← Icc_last_eq_Ico hc]
  exact heq

theorem box_mbc_nonchild_eq (H : GoodLayout s) {i : Nat} (hi : i < s.n) :
    (box_morton_bin_counts s (s.srcntgt_box_ids i)).nonchild_srcntgts
      = box_count s (s.srcntgt_box_ids i) (-1) := by
  have hc := box_count_pos H hi
  have heq := segscan_field_eq s (fun r => r.nonchild_srcntgts)
    (fun j => s.morton_nrs j = -1)
    (fun _ => rfl) (fun x y => by simp [scan_t_add])
    (flag_at_box_start H hi)
    (i := s.box_srcntgt_starts (s.srcntgt_box_ids i)
      + s.box_srcntgt_counts_cumul (s.srcntgt_box_ids i) - 1)
    (by omega)
    (fun j h1 h2 => flags_false_inside H hi j h1 h2)
  rw [box_morton_bin_counts, box_count, box_range, ← Icc_last_eq_Ico hc]
  exact heq

theorem my_count_eq (H : GoodLayout s) {i : Nat} (hi : i < s.n) :
    my_count s i = cum_count s i (s.morton_nrs i) := by
  obtain ⟨hm1, hm2, hm3⟩ := H.2.2.2.2 i hi
  by_cases hneg : s.morton_nrs i = -1
  · rcases hext : s.ext with _ | _
    · have h0 := hm3 hext
      rw [hneg] at h0
      norm_num at h0
    · have hnc := mbc_nonchild_eq H hi
      simp [my_count, get_count, hext, hneg, hnc]
  · have h0 : 0 ≤ s.morton_nrs i := by omega
    have hcast2 : ((2 ^ d : Nat) : Int) = 2 ^ d := by push_cast; ring
    have hM : (s.morton_nrs i).toNat < 2 ^ d := by omega
    have hcast : (((⟨(s.morton_nrs i).toNat, hM⟩ : Fin (2 ^ d)) : Nat) : Int)
        = s.morton_nrs i := Int.toNat_of_nonneg h0
    show get_count s.ext (morton_bin_counts s i) (s.morton_nrs i) = _
    rw [← hcast, get_count_eq_pcnt, mbc_pcnt_eq H hi, hcast]

theorem cum_count_self_pos (H : GoodLayout s) {i : Nat} (hi : i < s.n) :
    1 ≤ cum_count s i (s.morton_nrs i) := by
  refine Finset.card_pos.mpr ⟨i, ?_⟩
  rw [Finset.mem_filter, Finset.mem_Icc]
  exact ⟨⟨(H.1 i hi).1, le_refl i⟩, rfl⟩

theorem cum_count_eq_box_filter (H : GoodLayout s) {i : Nat} (hi : i < s.n)
    (m : Int) :
    cum_count s i m
      = ((box_range s (s.srcntgt_box_ids i)).filter
          (fun j => s.morton_nrs j = m ∧ j ≤ i)).card := by
  have hbox := H.1 i hi
  refine congrArg Finset.card ?_
  ext j
  rw [Finset.mem_filter, Finset.mem_filter, Finset.mem_Icc, box_range,
    Finset.mem_Ico]
  constructor
  · rintro ⟨⟨h1, h2⟩, h3⟩
    exact ⟨⟨h1, by omega⟩, h3, h2⟩
  · rintro ⟨⟨h1, h2⟩, h3, h4⟩
    exact ⟨⟨h1, h4⟩, h3⟩

theorem sum_pcnt_lt_eq (H : GoodLayout s) {i : Nat} (hi : i < s.n) :
    ∀ u : Nat, u ≤ 2 ^ d →
      (∑ mnr : Fin (2 ^ d),
          if ((mnr : Nat) : Int) < ((u : Nat) : Int) then
            (box_morton_bin_counts s (s.srcntgt_box_ids i)).pcnt mnr
          else 0)
        = ((box_range s (s.srcntgt_box_ids i)).filter
            (fun j => 0 ≤ s.morton_nrs j ∧
              s.morton_nrs j < ((u : Nat) : Int))).card := by
  intro u
  induction u with
  | zero =>
    intro _
    have h1 : (∑ mnr : Fin (2 ^ d),
        if ((mnr : Nat) : Int) < ((0 : Nat) : Int) then
          (box_morton_bin_counts s (s.srcntgt_box_ids i)).pcnt mnr
        else 0) = 0 :=
      Finset.sum_eq_zero (fun mnr _ => if_neg (by push_cast; omega))
    rw [h1, eq_comm, Finset.card_eq_zero, Finset.filter_eq_empty_iff]
    intro j _
    push_cast
    omega
  | succ u ih =>
    intro hu1
    have hu : u < 2 ^ d := hu1
    have hterm : ∀ mnr : Fin (2 ^ d),
        (if ((mnr : Nat) : Int) < (((u + 1) : Nat) : Int) then
          (box_morton_bin_counts s (s.srcntgt_box_ids i)).pcnt mnr
        else 0)
          = (if ((mnr : Nat) : Int) < ((u : Nat) : Int) then
              (box_morton_bin_counts s (s.srcntgt_box_ids i)).pcnt mnr
            else 0)
            + (if mnr = (⟨u, hu⟩ : Fin (2 ^ d)) then
                (box_morton_bin_counts s (s.srcntgt_box_ids i)).pcnt mnr
              else 0) := by
      intro mnr
      simp only [Nat.cast_lt]
      rcases lt_trichotomy ((mnr : Nat)) u with h | h | h
      · rw [if_pos (by omega), if_pos h,
          if_neg (by simp only [Fin.ext_iff]; omega)]
        omega
      · rw [if_pos (by omega), if_neg (by omega), if_pos (Fin.ext h)]
        omega
      · rw [if_neg (by omega), if_neg (by omega),
          if_neg (by simp only [Fin.ext_iff]; omega)]
    have hsingle : (∑ mnr : Fin (2 ^ d),
        if mnr = (⟨u, hu⟩ : Fin (2 ^ d)) then
          (box_morton_bin_counts s (s.srcntgt_box_ids i)).pcnt mnr
        else 0)
          = (box_morton_bin_counts s (s.srcntgt_box_ids i)).pcnt ⟨u, hu⟩ := by
      rw [Finset.sum_ite_eq' Finset.univ (⟨u, hu⟩ : Fin (2 ^ d)),
        if_pos (Finset.mem_univ _)]
    have hset : (box_range s (s.srcntgt_box_ids i)).filter
        (fun j => 0 ≤ s.morton_nrs j ∧ s.morton_nrs j < (((u + 1) : Nat) : Int))
          = ((box_range s (s.srcntgt_box_ids i)).filter
              (fun j => 0 ≤ s.morton_nrs j ∧ s.morton_nrs j < ((u : Nat) : Int)))
            ∪ ((box_range s (s.srcntgt_box_ids i)).filter
                (fun j => s.morton_nrs j = ((u : Nat) : Int))) := by
      ext j
      simp only [Finset.mem_filter, Finset.mem_union]
      constructor
      · rintro ⟨hbr, h0, hlt⟩
        by_cases hmu : s.morton_nrs j = ((u : Nat) : Int)
        · exact Or.inr ⟨hbr, hmu⟩
        · refine Or.inl ⟨hbr, h0, ?_⟩
          push_cast at hlt hmu ⊢
          omega
      · rintro (⟨hbr, h0, hlt⟩ | ⟨hbr, hmu⟩)
        · refine ⟨hbr, h0, ?_⟩
          push_cast at hlt ⊢
          omega
        · refine ⟨hbr, ?_, ?_⟩ <;> rw [hmu] <;> push_cast <;> omega
    have hdisj : Disjoint
        ((box_range s (s.srcntgt_box_ids i)).filter
          (fun j => 0 ≤ s.morton_nrs j ∧ s.morton_nrs j < ((u : Nat) : Int)))
        ((box_range s (s.srcntgt_box_ids i)).filter
          (fun j => s.morton_nrs j = ((u : Nat) : Int))) := by
      rw [Finset.disjoint_left]
      intro j hj1 hj2
      rw [Finset.mem_filter] at hj1 hj2
      omega
    have hpc := box_mbc_pcnt_eq H hi (⟨u, hu⟩ : Fin (2 ^ d))
    rw [Finset.sum_congr rfl (fun mnr _ => hterm mnr), Finset.sum_add_distrib,
      ih (le_of_lt hu), hsingle, hset,
      Finset.card_union_of_disjoint hdisj, hpc, box_count]

theorem offset_eq (H : GoodLayout s) {i : Nat} (hi : i < s.n) :
    ((if s.ext then
        (if 0 ≤ s.morton_nrs i then
          (box_morton_bin_counts s (s.srcntgt_box_ids i)).nonchild_srcntgts
        else 0)
      else 0)
      + ∑ mnr : Fin (2 ^ d),
          (if ((mnr : Nat) : Int) < s.morton_nrs i then
            (box_morton_bin_counts s (s.srcntgt_box_ids i)).pcnt mnr
          else 0))
      = ((box_range s (s.srcntgt_box_ids i)).filter
          (fun j => s.morton_nrs j < s.morton_nrs i)).card := by
  obtain ⟨hm1, hm2, hm3⟩ := H.2.2.2.2 i hi
  by_cases hneg : s.morton_nrs i = -1
  · have hz1 : (if s.ext then
        (if 0 ≤ s.morton_nrs i then
          (box_morton_bin_counts s (s.srcntgt_box_ids i)).nonchild_srcntgts
        else 0)
      else 0) = 0 := by
      rw [hneg]
      cases s.ext <;> simp
    have hz2 : (∑ mnr : Fin (2 ^ d),
        (if ((mnr : Nat) : Int) < s.morton_nrs i then
          (box_morton_bin_counts s (s.srcntgt_box_ids i)).pcnt mnr
        else 0)) = 0 :=
      Finset.sum_eq_zero (fun mnr _ => if_neg (by rw [hneg]; push_cast; omega))
    rw [hz1, hz2, eq_comm, Nat.add_zero, Finset.card_eq_zero,
      Finset.filter_eq_empty_iff]
    intro j hj
    have hjn := (mem_box_range_facts H hi hj).1
    have := (H.2.2.2.2 j hjn).1
    omega
  · have h0 : 0 ≤ s.morton_nrs i := by omega
    have hMcast : (((s.morton_nrs i).toNat : Nat) : Int) = s.morton_nrs i :=
      Int.toNat_of_nonneg h0
    have hcast2 : ((2 ^ d : Nat) : Int) = 2 ^ d := by push_cast; ring
    have hMle : (s.morton_nrs i).toNat ≤ 2 ^ d := by omega
    have hfirst : (if s.ext then
        (if 0 ≤ s.morton_nrs i then
          (box_morton_bin_counts s (s.srcntgt_box_ids i)).nonchild_srcntgts
        else 0)
      else 0)
        = ((box_range s (s.srcntgt_box_ids i)).filter
            (fun j => s.morton_nrs j = -1)).card := by
      have hncq := box_mbc_nonchild_eq H hi
      rw [box_count] at hncq
      cases hext : s.ext with
      | false =>
        rw [if_neg (by simp), eq_comm, Finset.card_eq_zero,
          Finset.filter_eq_empty_iff]
        intro j hj
        have hjn := (mem_box_range_facts H hi hj).1
        have := (H.2.2.2.2 j hjn).2.2 hext
        omega
      | true => rw [if_pos rfl, if_pos h0, hncq]
    have hsum := sum_pcnt_lt_eq H hi (s.morton_nrs i).toNat hMle
    rw [hMcast] at hsum
    have hset : (box_range s (s.srcntgt_box_ids i)).filter
        (fun j => s.morton_nrs j < s.morton_nrs i)
          = ((box_range s (s.srcntgt_box_ids i)).filter
              (fun j => s.morton_nrs j = -1))
            ∪ ((box_range s (s.srcntgt_box_ids i)).filter
                (fun j => 0 ≤ s.morton_nrs j ∧
                  s.morton_nrs j < s.morton_nrs i)) := by
      ext j
      simp only [Finset.mem_filter, Finset.mem_union]
      constructor
      · rintro ⟨hbr, hlt⟩
        have hjn := (mem_box_range_facts H hi hbr).1
        have := (H.2.2.2.2 j hjn).1
        by_cases hj1 : s.morton_nrs j = -1
        · exact Or.inl ⟨hbr, hj1⟩
        · exact Or.inr ⟨hbr, by omega, hlt⟩
      · rintro (⟨hbr, hj1⟩ | ⟨hbr, hj0, hjlt⟩)
        · exact ⟨hbr, by omega⟩
        · exact ⟨hbr, hjlt⟩
    have hdisj : Disjoint
        ((box_range s (s.srcntgt_box_ids i)).filter
          (fun j => s.morton_nrs j = -1))
        ((box_range s (s.srcntgt_box_ids i)).filter
          (fun j => 0 ≤ s.morton_nrs j ∧
            s.morton_nrs j < s.morton_nrs i)) := by
      rw [Finset.disjoint_left]
      intro j hj1 hj2
      rw [Finset.mem_filter] at hj1 hj2
      omega
    rw [hfirst, hsum, hset, Finset.card_union_of_disjoint hdisj]

/-- The rank of particle `i` within its box under the realization pass's
total order: non-child particles (morton `-1`) first, then octants in
increasing morton order, original array order within each bin. -/
def key_rank (s : LevelState d) (i : Nat) : Nat :=
  ((box_range s (s.srcntgt_box_ids i)).filter
    (fun j => s.morton_nrs j < s.morton_nrs i ∨
      (s.morton_nrs j = s.morton_nrs i ∧ j ≤ i))).card

theorem key_rank_eq (H : GoodLayout s) {i : Nat} (hi : i < s.n) :
    key_rank s i
      = ((box_range s (s.srcntgt_box_ids i)).filter
          (fun j => s.morton_nrs j < s.morton_nrs i)).card
        + cum_count s i (s.morton_nrs i) := by
  rw [key_rank, cum_count_eq_box_filter H hi, ← Finset.card_union_of_disjoint
    (by
      rw [Finset.disjoint_left]
      intro j hj1 hj2
      rw [Finset.mem_filter] at hj1 hj2
      have := hj2.2.1
      omega),
    ← Finset.filter_or]

theorem tgt_eq_rank (H : GoodLayout s) {i : Nat} (hi : i < s.n) :
    tgt_particle_idx s i
      = s.box_srcntgt_starts (s.srcntgt_box_ids i) + key_rank s i - 1 := by
  have hoff := offset_eq H hi
  have hmc := my_count_eq H hi
  have hpos := cum_count_self_pos H hi
  have hrank := key_rank_eq H hi
  unfold tgt_particle_idx
  rw [hmc]
  omega

theorem key_rank_pos (H : GoodLayout s) {i : Nat} (hi : i < s.n) :
    1 ≤ key_rank s i := by
  have h1 := key_rank_eq H hi
  have h2 := cum_count_self_pos H hi
  omega

theorem key_rank_le (H : GoodLayout s) {i : Nat} (hi : i < s.n) :
    key_rank s i ≤ s.box_srcntgt_counts_cumul (s.srcntgt_box_ids i) := by
  have h1 : key_rank s i ≤ (box_range s (s.srcntgt_box_ids i)).card :=
    Finset.card_filter_le _ _
  rw [box_range, Nat.card_Ico] at h1
  omega

theorem tgt_mem_box (H : GoodLayout s) {i : Nat} (hi : i < s.n) :
    s.box_srcntgt_starts (s.srcntgt_box_ids i) ≤ tgt_particle_idx s i ∧
      tgt_particle_idx s i
        < s.box_srcntgt_starts (s.srcntgt_box_ids i)
          + s.box_srcntgt_counts_cumul (s.srcntgt_box_ids i) := by
  have h1 := tgt_eq_rank H hi
  have h2 := key_rank_pos H hi
  have h3 := key_rank_le H hi
  omega

theorem key_rank_lt_of_morton_lt (H : GoodLayout s) {i j : Nat}
    (hi : i < s.n) (hj : j < s.n)
    (hb : s.srcntgt_box_ids j = s.srcntgt_box_ids i)
    (hmlt : s.morton_nrs i < s.morton_nrs j) :
    key_rank s i < key_rank s j := by
  unfold key_rank
  rw [hb]
  have hjmem : j ∈ box_range s (s.srcntgt_box_ids i) := by
    have := self_mem_box_range H hj
    rwa [hb] at this
  have hsub1 : (box_range s (s.srcntgt_box_ids i)).filter
      (fun x => s.morton_nrs x < s.morton_nrs i ∨
        (s.morton_nrs x = s.morton_nrs i ∧ x ≤ i))
        ⊆ (box_range s (s.srcntgt_box_ids i)).filter
            (fun x => s.morton_nrs x < s.morton_nrs j) := by
    intro x hx
    rw [Finset.mem_filter] at hx ⊢
    refine ⟨hx.1, ?_⟩
    rcases hx.2 with h | ⟨h, _⟩ <;> omega
  have hnot : j ∉ (box_range s (s.srcntgt_box_ids i)).filter
      (fun x => s.morton_nrs x < s.morton_nrs j) := by
    rw [Finset.mem_filter]
    rintro ⟨_, hc⟩
    omega
  have hsub2 : insert j ((box_range s (s.srcntgt_box_ids i)).filter
      (fun x => s.morton_nrs x < s.morton_nrs j))
        ⊆ (box_range s (s.srcntgt_box_ids i)).filter
            (fun x => s.morton_nrs x < s.morton_nrs j ∨
              (s.morton_nrs x = s.morton_nrs j ∧ x ≤ j)) := by
    intro x hx
    rw [Finset.mem_insert] at hx
    rcases hx with rfl | hx
    · rw [Finset.mem_filter]
      exact ⟨hjmem, Or.inr ⟨rfl, le_refl x⟩⟩
    · rw [Finset.mem_filter] at hx ⊢
      exact ⟨hx.1, Or.inl hx.2⟩
  calc ((box_range s (s.srcntgt_box_ids i)).filter
      (fun x => s.morton_nrs x < s.morton_nrs i ∨
        (s.morton_nrs x = s.morton_nrs i ∧ x ≤ i))).card
      ≤ ((box_range s (s.srcntgt_box_ids i)).filter
          (fun x => s.morton_nrs x < s.morton_nrs j)).card :=
        Finset.card_le_card hsub1
    _ < (insert j ((box_range s (s.srcntgt_box_ids i)).filter
          (fun x => s.morton_nrs x < s.morton_nrs j))).card := by
        rw [Finset.card_insert_of_not_mem hnot]
        omega
    _ ≤ _ := Finset.card_le_card hsub2

theorem key_rank_lt_of_eq_lt (H : GoodLayout s) {i j : Nat}
    (hi : i < s.n) (hj : j < s.n)
    (hb : s.srcntgt_box_ids j = s.srcntgt_box_ids i)
    (hmeq : s.morton_nrs i = s.morton_nrs j) (hij : i < j) :
    key_rank s i < key_rank s j := by
  unfold key_rank
  rw [hb]
  have hjmem : j ∈ box_range s (s.srcntgt_box_ids i) := by
    have := self_mem_box_range H hj
    rwa [hb] at this
  apply Finset.card_lt_card
  rw [Finset.ssubset_def]
  constructor
  · intro x hx
    rw [Finset.mem_filter] at hx ⊢
    refine ⟨hx.1, ?_⟩
    rcases hx.2 with h | ⟨h, h2⟩
    · exact Or.inl (by omega)
    · exact Or.inr ⟨by omega, by omega⟩
  · intro hcon
    have hjA : j ∈ (box_range s (s.srcntgt_box_ids i)).filter
        (fun x => s.morton_nrs x < s.morton_nrs j ∨
          (s.morton_nrs x = s.morton_nrs j ∧ x ≤ j)) := by
      rw [Finset.mem_filter]
      exact ⟨hjmem, Or.inr ⟨rfl, le_refl j⟩⟩
    have := hcon hjA
    rw [Finset.mem_filter] at this
    rcases this.2 with h | ⟨h, h2⟩ <;> omega

theorem new_particle_idx_lt_n (H : GoodLayout s) {i : Nat} (hi : i < s.n) :
    new_particle_idx s i < s.n := by
  unfold new_particle_idx
  by_cases hs : do_split_box s (s.srcntgt_box_ids i) = true
  · rw [if_pos hs]
    have h1 := (tgt_mem_box H hi).2
    have h2 := H.2.1 i hi
    omega
  · rw [if_neg hs]
    exact hi

theorem new_particle_idx_inj (H : GoodLayout s) {i j : Nat}
    (hi : i < s.n) (hj : j < s.n)
    (heq : new_particle_idx s i = new_particle_idx s j) : i = j := by
  have hord : ∀ i' j', i' < s.n → j' < s.n →
      s.srcntgt_box_ids j' = s.srcntgt_box_ids i' →
      do_split_box s (s.srcntgt_box_ids i') = true →
      (s.morton_nrs i' < s.morton_nrs j' →
        new_particle_idx s i' < new_particle_idx s j') := by
    intro i' j' hi' hj' hb hs hmlt
    have hsj : do_split_box s (s.srcntgt_box_ids j') = true := by rwa [hb]
    have e1 : new_particle_idx s i' = tgt_particle_idx s i' := by
      unfold new_particle_idx; rw [if_pos hs]
    have e2 : new_particle_idx s j' = tgt_particle_idx s j' := by
      unfold new_particle_idx; rw [if_pos hsj]
    have t1 := tgt_eq_rank H hi'
    have t2 := tgt_eq_rank H hj'
    have hr := key_rank_lt_of_morton_lt H hi' hj' hb hmlt
    have hp := key_rank_pos H hi'
    have hstarts : s.box_srcntgt_starts (s.srcntgt_box_ids j')
        = s.box_srcntgt_starts (s.srcntgt_box_ids i') := by rw [hb]
    rw [e1, e2, t1, t2, hstarts]
    omega
  have hord2 : ∀ i' j', i' < s.n → j' < s.n →
      s.srcntgt_box_ids j' = s.srcntgt_box_ids i' →
      do_split_box s (s.srcntgt_box_ids i') = true →
      s.morton_nrs i' = s.morton_nrs j' → i' < j' →
      new_particle_idx s i' < new_particle_idx s j' := by
    intro i' j' hi' hj' hb hs hmeq hij
    have hsj : do_split_box s (s.srcntgt_box_ids j') = true := by rwa [hb]
    have e1 : new_particle_idx s i' = tgt_particle_idx s i' := by
      unfold new_particle_idx; rw [if_pos hs]
    have e2 : new_particle_idx s j' = tgt_particle_idx s j' := by
      unfold new_particle_idx; rw [if_pos hsj]
    have t1 := tgt_eq_rank H hi'
    have t2 := tgt_eq_rank H hj'
    have hr := key_rank_lt_of_eq_lt H hi' hj' hb hmeq hij
    have hp := key_rank_pos H hi'
    have hstarts : s.box_srcntgt_starts (s.srcntgt_box_ids j')
        = s.box_srcntgt_starts (s.srcntgt_box_ids i') := by rw [hb]
    rw [e1, e2, t1, t2, hstarts]
    omega
  by_cases hsi : do_split_box s (s.srcntgt_box_ids i) = true <;>
    by_cases hsj : do_split_box s (s.srcntgt_box_ids j) = true
  · -- both boxes splitting: the common slot pins the two particles to one box
    have e1 : new_particle_idx s i = tgt_particle_idx s i := by
      unfold new_particle_idx; rw [if_pos hsi]
    have e2 : new_particle_idx s j = tgt_particle_idx s j := by
      unfold new_particle_idx; rw [if_pos hsj]
    have hmi := tgt_mem_box H hi
    have hmj := tgt_mem_box H hj
    have hpin : tgt_particle_idx s i ∈ box_range s (s.srcntgt_box_ids i) := by
      rw [box_range, Finset.mem_Ico]; exact hmi
    have hpjn : tgt_particle_idx s j ∈ box_range s (s.srcntgt_box_ids j) := by
      rw [box_range, Finset.mem_Ico]; exact hmj
    have hbi := (mem_box_range_facts H hi hpin).2
    have hbj := (mem_box_range_facts H hj hpjn).2
    rw [e1, e2] at heq
    rw [heq] at hbi
    have hb : s.srcntgt_box_ids j = s.srcntgt_box_ids i := by
      rw [← hbi, ← hbj]
    by_contra hne
    rcases lt_trichotomy (s.morton_nrs i) (s.morton_nrs j) with hm | hm | hm
    · have := hord i j hi hj hb hsi hm
      rw [e1, e2] at this
      omega
    · rcases lt_trichotomy i j with hij | hij | hij
      · have := hord2 i j hi hj hb hsi hm hij
        rw [e1, e2] at this
        omega
      · exact hne hij
      · have := hord2 j i hj hi (by rw [hb]) (by rwa [hb]) hm.symm hij
        rw [e1, e2] at this
        omega
    · have := hord j i hj hi (by rw [hb]) (by rwa [hb]) hm
      rw [e1, e2] at this
      omega
  · -- i's box splits, j's does not: the slot j would lie in i's splitting box
    exfalso
    have e1 : new_particle_idx s i = tgt_particle_idx s i := by
      unfold new_particle_idx; rw [if_pos hsi]
    have e2 : new_particle_idx s j = j := by
      unfold new_particle_idx; rw [if_neg hsj]
    have hmi := tgt_mem_box H hi
    have hpin : tgt_particle_idx s i ∈ box_range s (s.srcntgt_box_ids i) := by
      rw [box_range, Finset.mem_Ico]; exact hmi
    have hbi := (mem_box_range_facts H hi hpin).2
    rw [e1, e2] at heq
    rw [heq] at hbi
    exact hsj (by rwa [hbi])
  · exfalso
    have e1 : new_particle_idx s i = i := by
      unfold new_particle_idx; rw [if_neg hsi]
    have e2 : new_particle_idx s j = tgt_particle_idx s j := by
      unfold new_particle_idx; rw [if_pos hsj]
    have hmj := tgt_mem_box H hj
    have hpjn : tgt_particle_idx s j ∈ box_range s (s.srcntgt_box_ids j) := by
      rw [box_range, Finset.mem_Ico]; exact hmj
    have hbj := (mem_box_range_facts H hj hpjn).2
    rw [e1, e2] at heq
    rw [← heq] at hbj
    exact hsi (by rwa [hbj])
  · have e1 : new_particle_idx s i = i := by
      unfold new_particle_idx; rw [if_neg hsi]
    have e2 : new_particle_idx s j = j := by
      unfold new_particle_idx; rw [if_neg hsj]
    rw [e1, e2] at heq
    exact heq

/-- C1: the realization pass writes each slot of the output particle array
exactly once — the slot map is a permutation of `[0, n)` — a particle of a
non-splitting box keeps its index and box id unchanged, each particle of a
splitting box lands inside its box's contiguous particle range, non-child
particles come first and then octants `0, 1, ...` in increasing morton order
(morton `-1 < 0 < 1 < ...`), and the original array order is preserved
within each morton bin. -/
theorem claim_C1_split_and_sort {d : Nat} (s : LevelState d)
    (H : GoodLayout s) :
    ((Finset.range s.n).image (new_particle_idx s) = Finset.range s.n ∧
      (∀ i ∈ Finset.range s.n, ∀ j ∈ Finset.range s.n,
        new_particle_idx s i = new_particle_idx s j → i = j)) ∧
    (∀ i, i < s.n → do_split_box s (s.srcntgt_box_ids i) = false →
      new_particle_idx s i = i ∧
        new_srcntgt_box_id s i = (s.srcntgt_box_ids i : Int)) ∧
    (∀ i, i < s.n → do_split_box s (s.srcntgt_box_ids i) = true →
      s.box_srcntgt_starts (s.srcntgt_box_ids i) ≤ new_particle_idx s i ∧
        new_particle_idx s i < s.box_srcntgt_starts (s.srcntgt_box_ids i)
          + s.box_srcntgt_counts_cumul (s.srcntgt_box_ids i)) ∧
    (∀ i j, i < s.n → j < s.n →
      s.srcntgt_box_ids j = s.srcntgt_box_ids i →
      do_split_box s (s.srcntgt_box_ids i) = true →
      (s.morton_nrs i < s.morton_nrs j →
        new_particle_idx s i < new_particle_idx s j) ∧
      (s.morton_nrs i = s.morton_nrs j → i < j →
        new_particle_idx s i < new_particle_idx s j)) := by
  refine ⟨⟨?_, ?_⟩, ?_, ?_, ?_⟩
  · -- the image of [0, n) is all of [0, n)
    have hsub : (Finset.range s.n).image (new_particle_idx s)
        ⊆ Finset.range s.n := by
      intro p hp
      rw [Finset.mem_image] at hp
      obtain ⟨i, hi, rfl⟩ := hp
      rw [Finset.mem_range] at hi ⊢
      exact new_particle_idx_lt_n H hi
    refine Finset.eq_of_subset_of_card_le hsub ?_
    rw [Finset.card_image_of_injOn (fun i hi j hj heq =>
      new_particle_idx_inj H (Finset.mem_range.mp hi)
        (Finset.mem_range.mp hj) heq)]
  · intro i hi j hj heq
    exact new_particle_idx_inj H (Finset.mem_range.mp hi)
      (Finset.mem_range.mp hj) heq
  · intro i _ hns
    constructor
    · unfold new_particle_idx; rw [if_neg (by rw [hns]; simp)]
    · unfold new_srcntgt_box_id; rw [if_neg (by rw [hns]; simp)]
  · intro i hi hs
    have e1 : new_particle_idx s i = tgt_particle_idx s i := by
      unfold new_particle_idx; rw [if_pos hs]
    rw [e1]
    exact tgt_mem_box H hi
  · intro i j hi hj hb hs
    constructor
    · intro hmlt
      have hsj : do_split_box s (s.srcntgt_box_ids j) = true := by rwa [hb]
      have e1 : new_particle_idx s i = tgt_particle_idx s i := by
        unfold new_particle_idx; rw [if_pos hs]
      have e2 : new_particle_idx s j = tgt_particle_idx s j := by
        unfold new_particle_idx; rw [if_pos hsj]
      have t1 := tgt_eq_rank H hi
      have t2 := tgt_eq_rank H hj
      have hr := key_rank_lt_of_morton_lt H hi hj hb hmlt
      have hp := key_rank_pos H hi
      have hstarts : s.box_srcntgt_starts (s.srcntgt_box_ids j)
          = s.box_srcntgt_starts (s.srcntgt_box_ids i) := by rw [hb]
      rw [e1, e2, t1, t2, hstarts]
      omega
    · intro hmeq hij
      have hsj : do_split_box s (s.srcntgt_box_ids j) = true := by rwa [hb]
      have e1 : new_particle_idx s i = tgt_particle_idx s i := by
        unfold new_particle_idx; rw [if_pos hs]
      have e2 : new_particle_idx s j = tgt_particle_idx s j := by
        unfold new_particle_idx; rw [if_pos hsj]
      have t1 := tgt_eq_rank H hi
      have t2 := tgt_eq_rank H hj
      have hr := key_rank_lt_of_eq_lt H hi hj hb hmeq hij
      have hp := key_rank_pos H hi
      have hstarts : s.box_srcntgt_starts (s.srcntgt_box_ids j)
          = s.box_srcntgt_starts (s.srcntgt_box_ids i) := by rw [hb]
      rw [e1, e2, t1, t2, hstarts]
      omega

end RealizeLemmas

/-- The condition under which particle `i` executes the "set up child box
data structure" branch for octant `k` of box `b` in the split-and-sort
kernel: the particle belongs to the splitting box `b`, its morton number is
`k` (so the cascade selects branch `k` and no other), and its segmented
cumulative count `my_count` equals the box's total for that octant. -/
def writes_child_box_record {d : Nat} (s : LevelState d) (b : Nat)
    (k : Fin (2 ^ d)) (i : Nat) : Prop :=
  i < s.n ∧ s.srcntgt_box_ids i = b ∧ do_split_box s b = true ∧
    s.morton_nrs i = ((k : Nat) : Int) ∧
    (box_morton_bin_counts s b).pcnt k = my_count s i

/-- C4: for every non-empty octant `k` of every splitting box `b`, exactly
one particle satisfies the metadata-write condition — the last particle of
the box carrying morton number `k`, i.e. the unique particle whose segmented
cumulative count for its octant equals the octant's total count. -/
theorem claim_C4_unique_writer {d : Nat} (s : LevelState d)
    (H : GoodLayout s) (b : Nat) (k : Fin (2 ^ d)) (j0 : Nat)
    (hj0 : j0 < s.n) (hj0b : s.srcntgt_box_ids j0 = b)
    (hj0m : s.morton_nrs j0 = ((k : Nat) : Int))
    (hsplit : do_split_box s b = true) :
    ∃! i, writes_child_box_record s b k i := by
  subst hj0b
  have hne : ((box_range s (s.srcntgt_box_ids j0)).filter
      (fun x => s.morton_nrs x = ((k : Nat) : Int))).Nonempty :=
    ⟨j0, by
      rw [Finset.mem_filter]
      exact ⟨self_mem_box_range H hj0, hj0m⟩⟩
  obtain ⟨istar, histar⟩ : ∃ m, ((box_range s (s.srcntgt_box_ids j0)).filter
      (fun x => s.morton_nrs x = ((k : Nat) : Int))).max' hne = m := ⟨_, rfl⟩
  have hmax : istar ∈ (box_range s (s.srcntgt_box_ids j0)).filter
      (fun x => s.morton_nrs x = ((k : Nat) : Int)) :=
    histar ▸ Finset.max'_mem _ hne
  have hle : ∀ x ∈ (box_range s (s.srcntgt_box_ids j0)).filter
      (fun x => s.morton_nrs x = ((k : Nat) : Int)), x ≤ istar :=
    fun x hx => histar ▸ Finset.le_max' _ x hx
  obtain ⟨hbr, hmort⟩ := Finset.mem_filter.mp hmax
  obtain ⟨hin, hib⟩ := mem_box_range_facts H hj0 hbr
  -- the cumulative count of istar is its whole morton bin
  have hcum : cum_count s istar (s.morton_nrs istar)
      = ((box_range s (s.srcntgt_box_ids j0)).filter
          (fun x => s.morton_nrs x = ((k : Nat) : Int))).card := by
    rw [cum_count_eq_box_filter H hin]
    refine congrArg Finset.card ?_
    ext x
    rw [Finset.mem_filter, Finset.mem_filter, hib, hmort]
    constructor
    · rintro ⟨h1, h2, _⟩
      exact ⟨h1, h2⟩
    · rintro ⟨h1, h2⟩
      exact ⟨h1, h2, hle x (by rw [Finset.mem_filter]; exact ⟨h1, h2⟩)⟩
  have hbox : (box_morton_bin_counts s (s.srcntgt_box_ids j0)).pcnt k
      = ((box_range s (s.srcntgt_box_ids j0)).filter
          (fun x => s.morton_nrs x = ((k : Nat) : Int))).card := by
    have h1 := box_mbc_pcnt_eq H hin k
    rw [hib] at h1
    rw [h1, box_count]
  have hwrites : writes_child_box_record s (s.srcntgt_box_ids j0) k istar := by
    refine ⟨hin, hib, hsplit, hmort, ?_⟩
    rw [hbox, my_count_eq H hin, hcum]
  refine ⟨istar, hwrites, ?_⟩
  intro x hx
  obtain ⟨hxn, hxb, _, hxm, hxcnt⟩ := hx
  have hxT : x ∈ (box_range s (s.srcntgt_box_ids j0)).filter
      (fun x => s.morton_nrs x = ((k : Nat) : Int)) := by
    rw [Finset.mem_filter]
    refine ⟨?_, hxm⟩
    have := self_mem_box_range H hxn
    rwa [hxb] at this
  by_contra hne'
  have hxlt : x < istar := by
    have := hle x hxT
    omega
  -- then x's cumulative count misses istar, contradicting count equality
  have hxcum : cum_count s x (s.morton_nrs x) = ((box_range s
      (s.srcntgt_box_ids j0)).filter
        (fun j => s.morton_nrs j = ((k : Nat) : Int) ∧ j ≤ x)).card := by
    rw [cum_count_eq_box_filter H hxn, hxb, hxm]
  have hsub : ((box_range s (s.srcntgt_box_ids j0)).filter
      (fun j => s.morton_nrs j = ((k : Nat) : Int) ∧ j ≤ x))
        ⊂ (box_range s (s.srcntgt_box_ids j0)).filter
            (fun x => s.morton_nrs x = ((k : Nat) : Int)) := by
    rw [Finset.ssubset_def]
    constructor
    · intro y hy
      rw [Finset.mem_filter] at hy ⊢
      exact ⟨hy.1, hy.2.1⟩
    · intro hcon
      have := hcon hmax
      rw [Finset.mem_filter] at this
      omega
  have hlt : cum_count s x (s.morton_nrs x)
      < ((box_range s (s.srcntgt_box_ids j0)).filter
          (fun x => s.morton_nrs x = ((k : Nat) : Int))).card := by
    rw [hxcum]
    exact Finset.card_lt_card hsub
  have heq : (box_morton_bin_counts s (s.srcntgt_box_ids j0)).pcnt k
      = cum_count s x (s.morton_nrs x) := by
    rw [hxcnt, my_count_eq H hxn]
  omega

/-- A concrete realize-pass state for the witnesses: one splitting box with
three particles of morton numbers `1`, `-1` (non-child) and `0`. -/
def realize_wit : LevelState 1 where
  ext := true
  n := 3
  level := 1
  morton_nrs := fun i => if i = 0 then 1 else if i = 1 then -1 else 0
  user_srcntgt_ids := fun i => i
  refine_weights := fun _ => 1
  box_start_flags := fun j => decide (j = 0)
  srcntgt_box_ids := fun _ => 0
  split_box_ids := fun _ => 3
  box_srcntgt_starts := fun _ => 0
  box_srcntgt_counts_cumul := fun _ => 3
  box_levels := fun _ => 0
  box_has_children := fun _ => true

/-- Witness for C1 at the concrete state. -/
theorem claim_C1_witness :
    GoodLayout realize_wit ∧
      (((Finset.range realize_wit.n).image (new_particle_idx realize_wit)
          = Finset.range realize_wit.n ∧
        (∀ i ∈ Finset.range realize_wit.n, ∀ j ∈ Finset.range realize_wit.n,
          new_particle_idx realize_wit i = new_particle_idx realize_wit j →
            i = j)) ∧
      (∀ i, i < realize_wit.n →
        do_split_box realize_wit (realize_wit.srcntgt_box_ids i) = false →
        new_particle_idx realize_wit i = i ∧
          new_srcntgt_box_id realize_wit i
            = (realize_wit.srcntgt_box_ids i : Int)) ∧
      (∀ i, i < realize_wit.n →
        do_split_box realize_wit (realize_wit.srcntgt_box_ids i) = true →
        realize_wit.box_srcntgt_starts (realize_wit.srcntgt_box_ids i)
            ≤ new_particle_idx realize_wit i ∧
          new_particle_idx realize_wit i
            < realize_wit.box_srcntgt_starts (realize_wit.srcntgt_box_ids i)
              + realize_wit.box_srcntgt_counts_cumul
                  (realize_wit.srcntgt_box_ids i)) ∧
      (∀ i j, i < realize_wit.n → j < realize_wit.n →
        realize_wit.srcntgt_box_ids j = realize_wit.srcntgt_box_ids i →
        do_split_box realize_wit (realize_wit.srcntgt_box_ids i) = true →
        (realize_wit.morton_nrs i < realize_wit.morton_nrs j →
          new_particle_idx realize_wit i < new_particle_idx realize_wit j) ∧
        (realize_wit.morton_nrs i = realize_wit.morton_nrs j → i < j →
          new_particle_idx realize_wit i < new_particle_idx realize_wit j))) :=
  ⟨by decide, claim_C1_split_and_sort realize_wit (by decide)⟩

/-- Witness for C4 at the concrete state: octant `0` of box `0` is nonempty
(particle 2 carries morton number 0), so exactly one particle writes the
child record. -/
theorem claim_C4_witness :
    ((2 : Nat) < realize_wit.n ∧
      realize_wit.srcntgt_box_ids 2 = 0 ∧
      realize_wit.morton_nrs 2 = (((0 : Fin (2 ^ 1)) : Nat) : Int) ∧
      do_split_box realize_wit 0 = true) ∧
      (∃! i, writes_child_box_record realize_wit 0 (0 : Fin (2 ^ 1)) i) :=
  ⟨⟨by decide, by decide, by decide, by decide⟩,
    claim_C4_unique_writer realize_wit (by decide) 0 0 2 (by decide)
      (by decide) (by decide) (by decide)⟩

/-! ## The empty-box pruner (`find_prune_indices_kernel`)

A scan over boxes with input `box_srcntgt_counts_cumul[i] == 0 ? 1 : 0` and
merge `a + b`.  The output statement uses `prev_item` (the exclusive prefix
sum): `to_box_id[i] = i - prev_item`; surviving boxes additionally write
`from_box_id[i - prev_item] = i`; the last box writes
`nboxes_post_prune = N - item`. -/

structure PruneState where
  nboxes : Nat
  box_srcntgt_counts_cumul : Nat → Nat

def prune_input (t : PruneState) (i : Nat) : Nat :=
  if t.box_srcntgt_counts_cumul i = 0 then 1 else 0

/-- `prev_item` at box `i`: the number of empty boxes strictly before `i`. -/
def prune_prev_item (t : PruneState) (i : Nat) : Nat :=
  ∑ j in Finset.range i, prune_input t j

def to_box_id (t : PruneState) (i : Nat) : Nat := i - prune_prev_item t i

/-- `nboxes_post_prune = N - item` written at the last box
(`item` there being the inclusive sum of all `N` inputs). -/
def nboxes_post_prune (t : PruneState) : Nat :=
  t.nboxes - prune_prev_item t t.nboxes

/-- The `from_box_id` output array: each surviving box `i` writes its old id
into slot `to_box_id i`; unwritten slots keep the (unspecified) initial
contents, modelled as `0`. -/
def from_box_id (t : PruneState) : Nat → Nat :=
  (List.range t.nboxes).foldl
    (fun f i =>
      if t.box_srcntgt_counts_cumul i ≠ 0 then Function.update f (to_box_id t i) i
      else f)
    (fun _ => 0)

/-- Number of surviving (non-empty) boxes among `0..i-1`. -/
def num_surviving (t : PruneState) (i : Nat) : Nat :=
  ((Finset.range i).filter (fun j => t.box_srcntgt_counts_cumul j ≠ 0)).card

theorem prune_prev_item_eq (t : PruneState) (i : Nat) :
    prune_prev_item t i
      = ((Finset.range i).filter
          (fun j => t.box_srcntgt_counts_cumul j = 0)).card := by
  rw [prune_prev_item]
  unfold prune_input
  rw [Finset.sum_boole]
  norm_cast

theorem to_box_id_eq (t : PruneState) (i : Nat) :
    to_box_id t i = num_surviving t i := by
  have hsplit := Finset.filter_card_add_filter_neg_card_eq_card
    (s := Finset.range i) (p := fun j => t.box_srcntgt_counts_cumul j = 0)
  have hcard : (Finset.range i).card = i := Finset.card_range i
  have hprev := prune_prev_item_eq t i
  rw [to_box_id, num_surviving]
  have hcongr : ((Finset.range i).filter
      (fun j => ¬t.box_srcntgt_counts_cumul j = 0)).card
        = ((Finset.range i).filter
            (fun j => t.box_srcntgt_counts_cumul j ≠ 0)).card := rfl
  omega

theorem num_surviving_succ (t : PruneState) (i : Nat) :
    num_surviving t (i + 1)
      = num_surviving t i
        + (if t.box_srcntgt_counts_cumul i ≠ 0 then 1 else 0) := by
  rw [num_surviving, num_surviving, Finset.range_succ, Finset.filter_insert]
  by_cases h : t.box_srcntgt_counts_cumul i ≠ 0
  · rw [if_pos h, if_pos h, Finset.card_insert_of_not_mem (by simp)]
  · rw [if_neg h, if_neg h]
    omega

theorem num_surviving_mono (t : PruneState) {i j : Nat} (h : i ≤ j) :
    num_surviving t i ≤ num_surviving t j :=
  Finset.card_le_card
    (Finset.filter_subset_filter _ (Finset.range_subset.mpr h))

theorem num_surviving_lt (t : PruneState) {i i' : Nat} (h : i < i')
    (hc : t.box_srcntgt_counts_cumul i ≠ 0) :
    num_surviving t i < num_surviving t i' := by
  have h1 := num_surviving_succ t i
  have h2 := num_surviving_mono t (j := i') (i := i + 1) (by omega)
  rw [if_pos hc] at h1
  omega

theorem exists_survivor (t : PruneState) :
    ∀ N j, j < num_surviving t N →
      ∃ i, i < N ∧ t.box_srcntgt_counts_cumul i ≠ 0 ∧ num_surviving t i = j := by
  intro N
  induction N with
  | zero =>
    intro j hj
    rw [num_surviving] at hj
    simp at hj
  | succ N ih =>
    intro j hj
    rw [num_surviving_succ] at hj
    by_cases hc : t.box_srcntgt_counts_cumul N ≠ 0
    · rw [if_pos hc] at hj
      rcases Nat.lt_or_ge j (num_surviving t N) with hlt | hge
      · obtain ⟨i, h1, h2, h3⟩ := ih j hlt
        exact ⟨i, by omega, h2, h3⟩
      · exact ⟨N, by omega, hc, by omega⟩
    · rw [if_neg hc] at hj
      obtain ⟨i, h1, h2, h3⟩ := ih j (by omega)
      exact ⟨i, by omega, h2, h3⟩

theorem from_box_id_spec (t : PruneState) :
    ∀ N i, i < N →
      t.box_srcntgt_counts_cumul i ≠ 0 →
      (∀ i', i < i' → i' < N → t.box_srcntgt_counts_cumul i' ≠ 0 →
        to_box_id t i' ≠ to_box_id t i) →
      ((List.range N).foldl
        (fun f i =>
          if t.box_srcntgt_counts_cumul i ≠ 0 then
            Function.update f (to_box_id t i) i
          else f)
        (fun _ => 0)) (to_box_id t i) = i := by
  intro N
  induction N with
  | zero =>
    intro i hi
    omega
  | succ N ih =>
    intro i hi hc huniq
    rw [List.range_succ, List.foldl_append, List.foldl_cons, List.foldl_nil]
    rcases Nat.lt_or_ge i N with hiN | hiN
    · by_cases hcN : t.box_srcntgt_counts_cumul N ≠ 0
      · rw [if_pos hcN, Function.update_noteq
          (Ne.symm (huniq N hiN (by omega) hcN))]
        exact ih i hiN hc (fun i' h1 h2 h3 => huniq i' h1 (by omega) h3)
      · rw [if_neg hcN]
        exact ih i hiN hc (fun i' h1 h2 h3 => huniq i' h1 (by omega) h3)
    · have hiN' : i = N := by omega
      subst hiN'
      rw [if_pos hc, Function.update_same]

/-- C7: the pruner's two output maps are mutually inverse on surviving
boxes, the post-prune box count is the old box count minus the number of
zero-particle boxes, and old box `0` (the root) maps to new id `0`. -/
theorem claim_C7_prune_maps (t : PruneState) :
    (∀ i, i < t.nboxes → t.box_srcntgt_counts_cumul i ≠ 0 →
      from_box_id t (to_box_id t i) = i) ∧
    (∀ j, j < nboxes_post_prune t → to_box_id t (from_box_id t j) = j) ∧
    nboxes_post_prune t
      = t.nboxes - ((Finset.range t.nboxes).filter
          (fun i => t.box_srcntgt_counts_cumul i = 0)).card ∧
    to_box_id t 0 = 0 := by
  have hfwd : ∀ i, i < t.nboxes → t.box_srcntgt_counts_cumul i ≠ 0 →
      from_box_id t (to_box_id t i) = i := by
    intro i hi hc
    refine from_box_id_spec t t.nboxes i hi hc ?_
    intro i' h1 h2 h3
    rw [to_box_id_eq, to_box_id_eq]
    have := num_surviving_lt t h1 hc
    omega
  refine ⟨hfwd, ?_, ?_, ?_⟩
  · intro j hj
    have hpost : nboxes_post_prune t = num_surviving t t.nboxes := by
      have h1 := to_box_id_eq t t.nboxes
      rw [to_box_id] at h1
      rw [nboxes_post_prune, h1]
    rw [hpost] at hj
    obtain ⟨i, h1, h2, h3⟩ := exists_survivor t t.nboxes j hj
    have hti : to_box_id t i = j := by rw [to_box_id_eq, h3]
    rw [← hti, hfwd i h1 h2, hti]
  · rw [nboxes_post_prune, prune_prev_item_eq]
  · rw [to_box_id, prune_prev_item]
    simp

/-- Concrete pruner input for the witness: boxes with particle counts
`1, 0, 2` — box `1` is pruned. -/
def prune_wit : PruneState where
  nboxes := 3
  box_srcntgt_counts_cumul := fun i => if i = 0 then 1 else if i = 1 then 0 else 2

/-- Witness for C7 at the concrete input. -/
theorem claim_C7_witness :
    ((2 : Nat) < prune_wit.nboxes ∧ prune_wit.box_srcntgt_counts_cumul 2 ≠ 0 ∧
      (1 : Nat) < nboxes_post_prune prune_wit) ∧
      (from_box_id prune_wit (to_box_id prune_wit 2) = 2 ∧
        to_box_id prune_wit (from_box_id prune_wit 1) = 1) :=
  ⟨⟨by decide, by decide, by decide⟩,
    (claim_C7_prune_maps prune_wit).1 2 (by decide) (by decide),
    (claim_C7_prune_maps prune_wit).2.1 1 (by decide)⟩

/-! ## The source counter (`source_counter`)

A scan with input `(user_srcntgt_ids[i] < nsources) ? 1 : 0`, merge `a + b`,
and output statement `source_numbers[i] = prev_item` — the EXCLUSIVE prefix
sum. -/

structure SourceCountState where
  nsources : Nat
  user_srcntgt_ids : Nat → Nat

def source_counter_input (t : SourceCountState) (i : Nat) : Nat :=
  if t.user_srcntgt_ids i < t.nsources then 1 else 0

/-- `source_numbers[i] = prev_item`: the exclusive prefix sum of the source
indicators. -/
def source_numbers (t : SourceCountState) (i : Nat) : Nat :=
  ∑ j in Finset.range i, source_counter_input t j

/-- The claim's reading of the output: the number of sources at or BEFORE
(i.e. including) position `i`. -/
def sources_at_or_before (t : SourceCountState) (i : Nat) : Nat :=
  ((Finset.range (i + 1)).filter
    (fun j => t.user_srcntgt_ids j < t.nsources)).card

def source_count_cex : SourceCountState where
  nsources := 1
  user_srcntgt_ids := fun i => i

/-- C8 counterexample: with one source sitting at position `0`, the kernel
writes `source_numbers[0] = prev_item = 0`, while the count of sources at or
before position `0` is `1`. -/
theorem claim_C8_counterexample :
    source_numbers source_count_cex 0
      ≠ sources_at_or_before source_count_cex 0 := by
  decide

/-- C8 (amended): `source_numbers[i]` equals the number of sources STRICTLY
BEFORE position `i` in tree order (the exclusive count), where a particle is
a source iff its user id is below `nsources`. -/
theorem claim_C8_source_numbers (t : SourceCountState) (i : Nat) :
    source_numbers t i
      = ((Finset.range i).filter
          (fun j => t.user_srcntgt_ids j < t.nsources)).card := by
  rw [source_numbers]
  unfold source_counter_input
  rw [Finset.sum_boole]
  norm_cast

/-! ## `reorder_sources` / `reorder_potentials`
(`pyfmmlib_integration.Helmholtz2DExpansionWrangler`) -/

/-- `reorder_sources`: `source_array[self.tree.user_source_ids]`. -/
def reorder_sources {α : Type _} {N : Nat} (user_source_ids : Fin N → Fin N)
    (source_array : Fin N → α) : Fin N → α :=
  fun i => source_array (user_source_ids i)

/-- `reorder_potentials`: `potentials[self.tree.sorted_target_ids]`. -/
def reorder_potentials {α : Type _} {N : Nat}
    (sorted_target_ids : Fin N → Fin N) (potentials : Fin N → α) :
    Fin N → α :=
  fun i => potentials (sorted_target_ids i)

/-- Modelled from the spec: the tree driver (not under `src/`) builds, when
sources and targets coincide, `user_source_ids` as the tree-order → user-order
permutation and `sorted_target_ids` as its inverse
(`sorted_target_ids[user id] = tree index`), so that
`sorted_target_ids (user_source_ids t) = t` for every tree index `t`. -/
abbrev coincident_source_target_maps {N : Nat}
    (user_source_ids sorted_target_ids : Fin N → Fin N) : Prop :=
  ∀ t, sorted_target_ids (user_source_ids t) = t

/-- C9: when sources and targets coincide,
`reorder_potentials (reorder_sources x) = x` for every user-order vector
`x`; equivalently, indexing by `user_source_ids` and then by
`sorted_target_ids` is the identity permutation. -/
theorem claim_C9_reorder_roundtrip {α : Type _} {N : Nat}
    (user_source_ids sorted_target_ids : Fin N → Fin N)
    (hmaps : coincident_source_target_maps user_source_ids sorted_target_ids)
    (x : Fin N → α) :
    reorder_potentials sorted_target_ids (reorder_sources user_source_ids x)
        = x ∧
      ∀ u, user_source_ids (sorted_target_ids u) = u := by
  have hinj : Function.Injective user_source_ids := fun a b hab => by
    have := congrArg sorted_target_ids hab
    rwa [hmaps, hmaps] at this
  have hsurj : Function.Surjective user_source_ids :=
    Finite.surjective_of_injective hinj
  have hR : ∀ u, user_source_ids (sorted_target_ids u) = u := by
    intro u
    obtain ⟨v, hv⟩ := hsurj u
    rw [← hv, hmaps]
  refine ⟨funext fun u => ?_, hR⟩
  show x (user_source_ids (sorted_target_ids u)) = x u
  rw [hR]

/-- Witness for C9: the swap permutation on two particles, inverse to
itself, with an integer-valued vector. -/
theorem claim_C9_witness :
    coincident_source_target_maps
        (fun i : Fin 2 => 1 - i) (fun i : Fin 2 => 1 - i) ∧
      (reorder_potentials (fun i : Fin 2 => 1 - i)
          (reorder_sources (fun i : Fin 2 => 1 - i)
            (fun i : Fin 2 => (i : Int))) = (fun i : Fin 2 => (i : Int)) ∧
        ∀ u, (fun i : Fin 2 => 1 - i) ((fun i : Fin 2 => 1 - i) u) = u) :=
  ⟨by decide,
    claim_C9_reorder_roundtrip (fun i : Fin 2 => 1 - i)
      (fun i : Fin 2 => 1 - i) (by decide) (fun i : Fin 2 => (i : Int))⟩

/-! ## The morton-bit / extent geometry of `scan_t_from_particle`

`coord_t` floating-point arithmetic is modelled exactly over `ℚ`; the C cast
`(unsigned)(...)` of the (non-negative) scaled coordinate is modelled by the
floor.  This models the extent-enabled template instantiation (the extent
test is generated only when `srcntgts_have_extent`). -/

structure MortonGeomState (dim : Nat) where
  level : Nat
  stick_out_factor : ℚ
  bbox_min : Fin dim → ℚ
  bbox_max : Fin dim → ℚ
  srcntgt : Fin dim → ℚ
  srcntgt_radius : ℚ

/-- `${ax}_bits = (unsigned) (((srcntgt_ax - global_min_ax) / global_extent_ax)
* (1 << level))`. -/
def axis_bits {dim : Nat} (g : MortonGeomState dim) (ax : Fin dim) : Int :=
  Int.floor ((g.srcntgt ax - g.bbox_min ax)
    / (g.bbox_max ax - g.bbox_min ax) * ((2 : ℚ) ^ g.level))

def next_level_box_size_factor {dim : Nat} (g : MortonGeomState dim) : ℚ :=
  1 / ((2 : ℚ) ^ g.level)

/-- `(1. + STICK_OUT_FACTOR) * one_half` — "convert diameter to radius". -/
def box_radius_factor {dim : Nat} (g : MortonGeomState dim) : ℚ :=
  (1 + g.stick_out_factor) * (1 / 2)

def next_level_box_center {dim : Nat} (g : MortonGeomState dim)
    (ax : Fin dim) : ℚ :=
  g.bbox_min ax + (g.bbox_max ax - g.bbox_min ax)
    * ((axis_bits g ax : ℚ) + 1 / 2) * next_level_box_size_factor g

def next_level_box_stick_out_radius {dim : Nat} (g : MortonGeomState dim)
    (ax : Fin dim) : ℚ :=
  box_radius_factor g * (g.bbox_max ax - g.bbox_min ax)
    * next_level_box_size_factor g

/-- `stop_srcntgt_descent`: OR over the axes of the two boundary tests of
the generated code. -/
abbrev stop_srcntgt_descent {dim : Nat} (g : MortonGeomState dim) : Prop :=
  ∃ ax, (g.srcntgt ax + g.srcntgt_radius
      ≥ next_level_box_center g ax + next_level_box_stick_out_radius g ax)
    ∨ (g.srcntgt ax - g.srcntgt_radius
      < next_level_box_center g ax - next_level_box_stick_out_radius g ax)

/-- `level_morton_number`: the per-axis low bits assembled by shifts and
ORs, overridden to `-1` when descent stops. -/
def level_morton_number {dim : Nat} (g : MortonGeomState dim) : Int :=
  if stop_srcntgt_descent g then -1
  else (((List.finRange dim).foldl
    (fun acc ax =>
      acc ||| (((axis_bits g ax).toNat &&& 1) <<< (dim - 1 - (ax : Nat))))
    0 : Nat) : Int)

/-- The lower boundary of the next-level child box of the particle on one
axis. -/
def child_box_lo {dim : Nat} (g : MortonGeomState dim) (ax : Fin dim) : ℚ :=
  g.bbox_min ax + (g.bbox_max ax - g.bbox_min ax) * (axis_bits g ax : ℚ)
    * next_level_box_size_factor g

/-- The upper boundary of the next-level child box of the particle on one
axis. -/
def child_box_hi {dim : Nat} (g : MortonGeomState dim) (ax : Fin dim) : ℚ :=
  child_box_lo g ax
    + (g.bbox_max ax - g.bbox_min ax) * next_level_box_size_factor g

/-- The claim's reading of the extent test (C5): the PARTICLE's radius is
inflated by `(1 + stick_out_factor)/2` and tested against the exact
(uninflated) child-box boundary. -/
abbrev inflated_extent_crosses_child_box {dim : Nat}
    (g : MortonGeomState dim) : Prop :=
  ∃ ax, (g.srcntgt ax + g.srcntgt_radius * (1 + g.stick_out_factor) / 2
      ≥ child_box_hi g ax)
    ∨ (g.srcntgt ax - g.srcntgt_radius * (1 + g.stick_out_factor) / 2
      < child_box_lo g ax)

/-- Concrete 1-D geometry: level 1, stick-out factor 1, bounding box
`[0, 1)`, particle at `0.21` with radius `0.3`. -/
def geom_cex : MortonGeomState 1 where
  level := 1
  stick_out_factor := 1
  bbox_min := fun _ => 0
  bbox_max := fun _ => 1
  srcntgt := fun _ => 21 / 100
  srcntgt_radius := 3 / 10

/-- C5 counterexample: the code inflates the CHILD BOX's half-width by
`(1 + stick_out_factor)`, not the particle's radius by
`(1 + stick_out_factor)/2`.  At the concrete input the code lets the
particle descend (morton number `0`, not `-1`), while the claim's
inflated-particle-extent test says it crosses the child-box boundary
(`0.21 + 0.3 > 0.5`). -/
theorem claim_C5_counterexample :
    level_morton_number geom_cex ≠ -1 ∧
      inflated_extent_crosses_child_box geom_cex := by
  have hbits : axis_bits geom_cex 0 = 0 := by
    rw [axis_bits, Int.floor_eq_iff]
    norm_num [geom_cex]
  have haxis : ∀ ax : Fin 1, ax = 0 := fun ax => Subsingleton.elim ax 0
  have hstop : ¬ stop_srcntgt_descent geom_cex := by
    rintro ⟨ax, h | h⟩ <;> rw [haxis ax] at h <;>
      rw [next_level_box_center, next_level_box_stick_out_radius,
        next_level_box_size_factor, box_radius_factor, hbits] at h <;>
      norm_num [geom_cex] at h
  constructor
  · rw [level_morton_number, if_neg hstop]
    omega
  · refine ⟨0, Or.inl ?_⟩
    rw [child_box_hi, child_box_lo, next_level_box_size_factor, hbits]
    norm_num [geom_cex]

/-- C5 (amended): with extents enabled, the morton bin counter marks a
particle non-child (morton number `-1`), keeping it attached to its current
box, exactly when the particle's extent interval `[x - r, x + r)` sticks out
of the child box inflated by the stick-out factor — i.e. beyond
`child_box_hi + stick_out_factor * width / 2` above or
`child_box_lo - stick_out_factor * width / 2` below — on at least one axis. -/
theorem claim_C5_nonchild_marking {dim : Nat} (g : MortonGeomState dim) :
    (level_morton_number g = -1 ↔
      ∃ ax, (g.srcntgt ax + g.srcntgt_radius
          ≥ child_box_hi g ax + g.stick_out_factor
              * ((g.bbox_max ax - g.bbox_min ax)
                  * next_level_box_size_factor g) / 2)
        ∨ (g.srcntgt ax - g.srcntgt_radius
          < child_box_lo g ax - g.stick_out_factor
              * ((g.bbox_max ax - g.bbox_min ax)
                  * next_level_box_size_factor g) / 2)) ∧
    (∀ (d' : Nat) (s : LevelState d') (i : Nat), s.ext = true →
      s.morton_nrs i = -1 →
      new_srcntgt_box_id s i = (s.srcntgt_box_ids i : Int)) := by
  have hbound1 : ∀ ax,
      next_level_box_center g ax + next_level_box_stick_out_radius g ax
        = child_box_hi g ax + g.stick_out_factor
            * ((g.bbox_max ax - g.bbox_min ax)
                * next_level_box_size_factor g) / 2 := by
    intro ax
    unfold next_level_box_center next_level_box_stick_out_radius child_box_hi
      child_box_lo box_radius_factor
    ring
  have hbound2 : ∀ ax,
      next_level_box_center g ax - next_level_box_stick_out_radius g ax
        = child_box_lo g ax - g.stick_out_factor
            * ((g.bbox_max ax - g.bbox_min ax)
                * next_level_box_size_factor g) / 2 := by
    intro ax
    unfold next_level_box_center next_level_box_stick_out_radius
      child_box_lo box_radius_factor
    ring
  have hstop_iff : stop_srcntgt_descent g ↔
      (∃ ax, (g.srcntgt ax + g.srcntgt_radius
          ≥ child_box_hi g ax + g.stick_out_factor
              * ((g.bbox_max ax - g.bbox_min ax)
                  * next_level_box_size_factor g) / 2)
        ∨ (g.srcntgt ax - g.srcntgt_radius
          < child_box_lo g ax - g.stick_out_factor
              * ((g.bbox_max ax - g.bbox_min ax)
                  * next_level_box_size_factor g) / 2)) := by
    constructor
    · rintro ⟨ax, h | h⟩
      · exact ⟨ax, Or.inl (by rwa [hbound1 ax] at h)⟩
      · exact ⟨ax, Or.inr (by rwa [hbound2 ax] at h)⟩
    · rintro ⟨ax, h | h⟩
      · exact ⟨ax, Or.inl (by rwa [hbound1 ax])⟩
      · exact ⟨ax, Or.inr (by rwa [hbound2 ax])⟩
  constructor
  · by_cases hstop : stop_srcntgt_descent g
    · rw [level_morton_number, if_pos hstop]
      simp only [true_iff, iff_true]
      exact hstop_iff.mp hstop
    · rw [level_morton_number, if_neg hstop]
      constructor
      · intro h
        exfalso
        have := Int.natCast_nonneg ((List.finRange dim).foldl
          (fun acc ax =>
            acc ||| (((axis_bits g ax).toNat &&& 1) <<< (dim - 1 - (ax : Nat))))
          0)
        omega
      · intro h
        exact absurd (hstop_iff.mpr h) hstop
  · intro d' s i hext hm
    unfold new_srcntgt_box_id
    by_cases hs : do_split_box s (s.srcntgt_box_ids i) = true
    · rw [if_pos hs, if_pos ⟨hext, hm⟩]
    · rw [if_neg hs]

/-- Witness for C5: the non-child particle (index 1) of the concrete
realize-pass state keeps its box id. -/
theorem claim_C5_witness :
    (realize_wit.ext = true ∧ realize_wit.morton_nrs 1 = -1) ∧
      new_srcntgt_box_id realize_wit 1 = (realize_wit.srcntgt_box_ids 1 : Int) :=
  ⟨⟨by decide, by decide⟩,
    (claim_C5_nonchild_marking geom_cex).2 1 realize_wit 1 (by decide)
      (by decide)⟩

end Boxtree
